import Mathlib

/-!
Verification development for the onion-vanity-address repository.

The repository searches for ed25519 vanity keys.  Its computational core is:

* a batch candidate generator `search` over the edwards25519 curve that yields
  y-only candidate public keys together with their offsets from a start key,
* `add` / `publicKeyFor` offset arithmetic reconstructing secret keys,
* a bit-level prefix matcher (`decodePrefixBits`, `hasPrefixBits`) over
  base32-encoded onion addresses,
* the Harris vector-division kernel `vectorDivision`,
* the `.onion` address encoder `encodeOnionAddress`.

This file shallowly embeds those functions.  Machine integers are modelled as
`Nat` with explicit reductions; 32-byte strings are `List Nat` with entries
below 256 (little-endian unless said otherwise); the prime field
GF(2^255 - 19) is modelled as `Nat` values below the prime for the executable
search pipeline, and as `ZMod P25519` for the algebraic vector-division claim.
The field and curve primitives themselves live in external libraries
(filippo.io/edwards25519 and vanity25519/field) that the repository consumes;
they are modelled from the specification's description of them (section 3 of
the spec: field element of GF(2^255-19) with add/sub/mul/invert and 32-byte
little-endian encoding; twisted Edwards points with extended coordinates).
-/

set_option maxRecDepth 100000

namespace OnionVanity

/-! # Definitions -/

/-! ## Little-endian and big-endian byte strings -/

/-- Value of a little-endian byte string (least significant byte first). -/
def leNat : List Nat → Nat
  | [] => 0
  | b :: t => b + 256 * leNat t

/-- Little-endian byte string of width `k` for value `n` (truncating above `2^(8k)`). -/
def leBytes : Nat → Nat → List Nat
  | 0, _ => []
  | k + 1, n => n % 256 :: leBytes k (n / 256)

/-- Value of a big-endian byte string (most significant byte first). -/
def beNat (l : List Nat) : Nat := l.foldl (fun acc b => acc * 256 + b) 0

/-! ## Fuel-based modular exponentiation (binary), with correctness -/

/-- Strict sequencing: semantically the identity on its second argument; the
kernel evaluates the first argument to a numeral while deciding the (always
true) test, which keeps evaluation of the tail-recursive loops below in
constant stack. -/
def seqN {α : Type} (n : Nat) (k : α) : α := if n = n then k else k

/-- Binary modular exponentiation, tail-recursive with explicit fuel so that
the kernel can evaluate it iteratively.  Computes `acc * b ^ e % m` whenever
`e < 2 ^ fuel` and `0 < m`. -/
def powModAux : Nat → Nat → Nat → Nat → Nat → Nat
  | 0, _, acc, _, m => acc % m
  | fuel + 1, e, acc, b, m =>
    if e = 0 then acc % m
    else
      seqN (acc + b)
        (powModAux fuel (e / 2) (if e % 2 = 1 then acc * b % m else acc) (b * b % m) m)

/-- Modular exponentiation `b ^ e % m` (for `e < 2 ^ fuel`, `0 < m`). -/
def powMod (fuel b e m : Nat) : Nat := powModAux fuel e 1 b m

/-! ## Primality of 2^255 - 19 via Pratt / Lucas certificates -/

/-- The field prime of curve25519. -/
def P25519 : Nat := 2 ^ 255 - 19

/-! ## Executable field arithmetic on `Nat`

Modelled from the spec: field element of GF(2^255 - 19) with add, sub, mul,
invert and 32-byte little-endian encoding (the `field.Element` type of the
out-of-scope library).  Values are kept reduced below `P25519`; `finv` is the
library's `Invert`, which raises to the power `p - 2` (so `finv 0 = 0`). -/

def fadd (a b : Nat) : Nat := (a + b) % P25519

def fsub (a b : Nat) : Nat := (a + (P25519 - b % P25519)) % P25519

def fmul (a b : Nat) : Nat := a * b % P25519

def finv (a : Nat) : Nat := powMod 256 a (P25519 - 2) P25519

/-! ## Executable edwards25519 point arithmetic

Modelled from the spec: twisted Edwards points in extended coordinates
(X, Y, Z, T), with the standard complete addition formulas, the base point B,
the cofactor-cleared base point B8 = 8*B, compressed 32-byte encoding (y with
the sign of x in the top bit) and RFC 8032 decoding (the `edwards25519.Point`
type of the out-of-scope library). -/

structure EPoint where
  X : Nat
  Y : Nat
  Z : Nat
  T : Nat
deriving DecidableEq

/-- Curve constant d of edwards25519. -/
def dConst : Nat :=
  37095705934669439343138083508754565189542113879843219016388785533085940283555

/-- Group order of the prime-order subgroup (the order of the base point). -/
def ellConst : Nat := 2 ^ 252 + 27742317777372353535851937790883648493

def idPoint : EPoint := ⟨0, 1, 1, 0⟩

/-- Complete unified addition on extended coordinates (add-2008-hwcd-3). -/
def pointAdd (p q : EPoint) : EPoint :=
  let a := fmul (fsub p.Y p.X) (fsub q.Y q.X)
  let b := fmul (fadd p.Y p.X) (fadd q.Y q.X)
  let c := fmul (fmul p.T (fmul 2 dConst)) q.T
  let dd := fmul (fadd p.Z p.Z) q.Z
  let e := fsub b a
  let f := fsub dd c
  let g := fadd dd c
  let h := fadd b a
  ⟨fmul e f, fmul g h, fmul f g, fmul e h⟩

/-- Strict sequencing through a point (see `seqN`). -/
def seqE {α : Type} (p : EPoint) (k : α) : α := seqN (p.X + p.Y + p.Z + p.T) k

def smulAux : Nat → Nat → EPoint → EPoint → EPoint
  | 0, _, _, acc => acc
  | fuel + 1, n, q, acc =>
    if n = 0 then acc
    else
      seqE q (seqE acc
        (smulAux fuel (n / 2) (pointAdd q q) (if n % 2 = 1 then pointAdd acc q else acc)))

def pointScalarMul (n : Nat) (q : EPoint) : EPoint := smulAux 256 n q idPoint

def baseX : Nat :=
  15112221349535400772501151409588531511454012693041857206046113283949847762202

def baseY : Nat :=
  46316835694926478169428394003475163141307993866256225615783033603165251855960

def basePoint : EPoint := ⟨baseX, baseY, 1, fmul baseX baseY⟩

/-- The cofactor-cleared base point 8*B (`_B8` in the source). -/
def B8 : EPoint := pointScalarMul 8 basePoint

/-- Compressed encoding: 32 little-endian bytes of y, sign of x in bit 255. -/
def encodePoint (p : EPoint) : List Nat :=
  let zinv := finv p.Z
  let x := fmul p.X zinv
  let y := fmul p.Y zinv
  leBytes 32 (y + 2 ^ 255 * (x % 2))

/-- Square-root-of-ratio recovery per RFC 8032 section 5.1.3. -/
def sqrtRatioM (u v : Nat) : Option Nat :=
  let cand := fmul (fmul u (powMod 256 v 3 P25519))
    (powMod 256 (fmul u (powMod 256 v 7 P25519)) ((P25519 - 5) / 8) P25519)
  if fmul v (fmul cand cand) = u % P25519 then some cand
  else if fadd (fmul v (fmul cand cand)) u = 0 then
    some (fmul cand (powMod 256 2 ((P25519 - 1) / 4) P25519))
  else none

/-- Decoding of a compressed point (`edwards25519.Point.SetBytes`): the top bit
is the sign of x, the remaining 255 bits the y-coordinate (non-canonical
values accepted, as in the library); fails when x^2 = (y^2-1)/(d y^2+1) has no
root, or when x = 0 with sign 1. -/
def pointDecode (bs : List Nat) : Option EPoint :=
  if bs.length ≠ 32 then none
  else
    let n := leNat bs
    let sign := n / 2 ^ 255
    let y := n % 2 ^ 255 % P25519
    let u := fsub (fmul y y) 1
    let v := fadd (fmul dConst (fmul y y)) 1
    match sqrtRatioM u v with
    | none => none
    | some x0 =>
      if x0 = 0 ∧ sign = 1 then none
      else some ⟨if x0 % 2 ≠ sign then P25519 - x0 else x0, y, 1,
        fmul (if x0 % 2 ≠ sign then P25519 - x0 else x0) y⟩

/-! ## Key derivation: clamping, `publicKeyFor`, `add` -/

/-- Ed25519 clamping of a 32-byte secret key, byte-for-byte as in the spec:
clear bits 0-2 of byte 0, clear bit 7 of byte 31, set bit 6 of byte 31. -/
def clampBytes (bs : List Nat) : List Nat :=
  (bs.set 0 (Nat.land (bs.getD 0 0) 248)).set 31 (Nat.lor (Nat.land (bs.getD 31 0) 127) 64)

def clampVal (bs : List Nat) : Nat := leNat (clampBytes bs)

/-- Model of `publicKeyFor`: clamp, reduce modulo the group order (as
`Scalar.SetBytesWithClamping` does), multiply the base point, encode. -/
def publicKeyFor (privateKey : List Nat) : List Nat :=
  encodePoint (pointScalarMul (clampVal privateKey % ellConst) basePoint)

/-- Model of the offset addition `add` from the source: interpret the secret
key as a field element (the top bit is ignored by `field.Element.SetBytes`),
add 8 times the offset in GF(2^255-19), and return the canonical 32-byte
little-endian encoding.  No clamping is applied to the result. -/
def addFe (sk : List Nat) (off : Nat) : List Nat :=
  leBytes 32 ((leNat sk % 2 ^ 255 % P25519 + 8 * (off % 2 ^ 255 % P25519) % P25519) % P25519)

/-- The `add` entry point: `field.Element.SetBytes` fails unless the key is
32 bytes, and `bigIntBytes` refuses offsets of 255 bits or more. -/
def addGo (sk : List Nat) (off : Nat) : Option (List Nat) :=
  if sk.length = 32 ∧ off < 2 ^ 255 then some (addFe sk off) else none

/-- Fixture secret key scalar from the repository test data
(directory onionjifniegtjbbifet65goa2siqubne6n2qfhiksryfvsbdhdl5zid.onion). -/
def skFixture : List Nat :=
  [248, 71, 236, 250, 223, 208, 10, 89, 134, 63, 6, 2, 80, 154, 83, 103, 201, 113, 181, 163,
   51, 63, 193, 56, 65, 139, 74, 164, 144, 205, 65, 68]

/-- Fixture public key from the repository test data. -/
def pkFixture : List Nat :=
  [115, 80, 230, 165, 5, 106, 8, 105, 164, 33, 65, 73, 63, 116, 206, 6, 164, 136, 80, 45,
   39, 155, 168, 20, 232, 84, 163, 130, 214, 65, 25, 198]

/-! ## The batch search pipeline (`search` in the source) -/

/-- Affine point with precomputed product, as the source's `affine` struct. -/
structure AffPoint where
  x : Nat
  y : Nat
  xy : Nat
deriving DecidableEq

/-- The source's `affine.fromP3`: divide by Z using one inversion. -/
def fromP3 (p : EPoint) : AffPoint :=
  let zinv := finv p.Z
  let x := fmul p.X zinv
  let y := fmul p.Y zinv
  ⟨x, y, fmul x y⟩

/-- The source's `affine.fromP3zInv`: divide by Z using a supplied inverse. -/
def fromP3zInv (p : EPoint) (zinv : Nat) : AffPoint :=
  let x := fmul p.X zinv
  let y := fmul p.Y zinv
  ⟨x, y, fmul x y⟩

/-- Forward accumulation pass shared by the two loops of `vectorDivision`
(`Nat` pipeline version): threads a running product through the list and
multiplies each element of `xs` by the product so far. -/
def vdFwdN : Nat → List Nat → List Nat → Nat × List Nat
  | py, x :: xs, y :: ys =>
    let r := vdFwdN (fmul py y) xs ys
    (r.1, fmul py x :: r.2)
  | py, _, _ => (py, [])

/-- The source's `vectorDivision` on reduced `Nat` field values, as used
inside the search pipeline: one inversion, forward and backward passes. -/
def vectorDivisionN (x y : List Nat) : List Nat :=
  match x, y with
  | x0 :: xs, y0 :: ys =>
    let f := vdFwdN y0 xs ys
    let pyInv := finv f.1
    let b := vdFwdN pyInv f.2.reverse ys.reverse
    fmul b.1 x0 :: b.2.reverse
  | _, _ => []

/-- Trace of one iteration of the search loop: every candidate byte string
passed to `accept` (in order: the batch offsets, then the center point), and
every `(publicKey, offset)` pair passed to `yield`.  The offset is a
`big.Int` in the source (`startOffset + i ± j`-terms computed in arbitrary
precision from the wrapped `uint64` counter `i`), modelled as `Int`. -/
structure BatchTrace where
  examined : List (List Nat)
  yields : List (List Nat × Int)
deriving DecidableEq

/-- Outcome of a `search` run.  The Go function has no error channel at all:
its result type is a bare `uint64` count; initialization failures `panic`.
`panicked` models a panic, `ok` models a normal return with the returned
count and the per-batch traces. -/
inductive SearchResult
  | panicked (msg : String)
  | ok (count : Nat) (batches : List BatchTrace)
deriving DecidableEq

/-- The offsets table construction from the source: `offsets[i] = (i+1)*B8`
in affine form, built by repeated addition; also returns the final running
point `poi = (batchSize/2)*B8`. -/
def offsetsTable : Nat → EPoint → List AffPoint × EPoint
  | 0, poi => ([], poi)
  | 1, poi => ([fromP3 poi], poi)
  | k + 2, poi =>
    let r := offsetsTable (k + 1) (pointAdd poi B8)
    (fromP3 poi :: r.1, r.2)

/-- The inner loop over `j < batchSize/2` of the search: numerators and
denominators of the y-only affine addition formulas for `center + off[j]`
(first half) and `center - off[j]` (second half). -/
def ynumYden (pa : AffPoint) (tbl : List AffPoint) : List Nat × List Nat :=
  let pos := tbl.map fun p2 => (fsub pa.xy p2.xy, fsub (fmul pa.x p2.y) (fmul pa.y p2.x))
  let neg := tbl.map fun p2 => (fadd pa.xy p2.xy, fadd (fmul pa.x p2.y) (fmul pa.y p2.x))
  ((pos ++ neg).map Prod.fst, (pos ++ neg).map Prod.snd)

/-- One iteration of the search batch loop, as in the source: build the
numerators and denominators, advance the projective center, piggyback the
1/Z division, run `vectorDivision`, test the batch candidates and the center
point, and refresh the affine center. -/
def runBatch (n so i : Nat) (tbl : List AffPoint) (batchOffset : EPoint)
    (accept : List Nat → Bool) (pP : EPoint) (pa : AffPoint) :
    EPoint × AffPoint × BatchTrace :=
  let nd := ynumYden pa tbl
  let pP2 := pointAdd pP batchOffset
  let ys := vectorDivisionN (nd.1 ++ [1]) (nd.2 ++ [pP2.Z])
  let pZinv := ys.getD n 0
  let cands := (List.range n).map fun j => leBytes 32 (ys.getD j 0)
  let centerB := leBytes 32 pa.y
  let batchYields := (List.range n).filterMap fun j =>
    let cb := leBytes 32 (ys.getD j 0)
    if accept cb then
      some (cb, if j < n / 2 then ((so + i + (j + 1) : Nat) : Int)
        else ((so + i : Nat) : Int) - ((j + 1 - n / 2 : Nat) : Int))
    else none
  let centerYields := if accept centerB then [(centerB, ((so + i : Nat) : Int))] else []
  (pP2, fromP3zInv pP2 pZinv, ⟨cands ++ [centerB], batchYields ++ centerYields⟩)

/-- The search batch loop, run for a given number of iterations (the context
is polled once per batch; `nBatches` models when cancellation is observed).
Returns the final value of the running counter `i` — a `uint64` in the
source, so the per-batch step `i += uint64(batchSize+1)` wraps modulo
`2^64` — and the batch traces. -/
def runBatches (n so : Nat) (tbl : List AffPoint) (batchOffset : EPoint)
    (accept : List Nat → Bool) : Nat → Nat → EPoint → AffPoint → Nat × List BatchTrace
  | 0, i, _, _ => (i, [])
  | nb + 1, i, pP, pa =>
    let r := runBatch n so i tbl batchOffset accept pP pa
    let rest := runBatches n so tbl batchOffset accept nb ((i + n + 1) % 2 ^ 64) r.1 r.2.1
    (rest.1, r.2.2 :: rest.2)

/-- Shallow embedding of the source's `search`: validates the arguments in
the source's order (panicking as the source does), decodes the start key,
shifts by `startOffset*B8` and by half a batch, precomputes the offsets
table, and runs `nBatches` iterations of the batch loop before the context
is observed as done, returning `i - uint64(batchSize/2)` as the source does:
the counter `i` is a `uint64`, so both it and the final subtraction wrap
modulo `2^64`. -/
def searchGo (startPublicKey : List Nat) (startOffset : Int) (batchSize : Int)
    (accept : List Nat → Bool) (nBatches : Nat) : SearchResult :=
  if startOffset < 0 then .panicked "startOffset must be non-negative"
  else if batchSize ≤ 0 ∨ batchSize % 2 ≠ 0 then .panicked "batchSize must be positive and even"
  else
    match pointDecode startPublicKey with
    | none => .panicked "invalid public key"
    | some p0 =>
      let so := startOffset.toNat
      let n := batchSize.toNat
      let po := pointScalarMul (so % ellConst) B8
      let p1 := pointAdd p0 po
      let tp := offsetsTable (n / 2) B8
      let batchOffset := pointAdd (pointAdd B8 tp.2) tp.2
      let p2 := pointAdd p1 tp.2
      let r := runBatches n so tp.1 batchOffset accept nBatches (n / 2 % 2 ^ 64) p2 (fromP3 p2)
      .ok ((r.1 + (2 ^ 64 - n / 2 % 2 ^ 64)) % 2 ^ 64) r.2

/-- The lowercase base32 alphabet used for onion addresses. -/
def onionAlphabet : List Char := "abcdefghijklmnopqrstuvwxyz234567".toList

/-- The uppercase base32 alphabet used for client authorization keys. -/
def clientAlphabet : List Char := "ABCDEFGHIJKLMNOPQRSTUVWXYZ234567".toList

/-- Index of a character in the alphabet (`none` models the decoder's
CorruptInputError for characters outside the alphabet). -/
def charIndex (ab : List Char) (c : Char) : Option Nat := ab.indexOf? c

/-- Decode every character of a string to its 5-bit value (the first
character outside the alphabet yields the decoder's error). -/
def charVals (ab : List Char) : List Char → Option (List Nat)
  | [] => some []
  | c :: t =>
    match charIndex ab c, charVals ab t with
    | some v, some vt => some (v :: vt)
    | _, _ => none

/-- Value of a base32 digit string (5 bits per character, big-endian). -/
def b32Val (vals : List Nat) : Nat := vals.foldl (fun a v => a * 32 + v) 0

/-- Big-endian byte string of width `k` for value `n`. -/
def beBytes (k n : Nat) : List Nat := (leBytes k n).reverse

/-- Base32 decoding of whole 8-character quanta: each quantum of eight 5-bit
values packs into five bytes, big-endian, exactly as `base32.Encoding.Decode`
does. -/
def decodeQuantums : List Nat → List Nat
  | v0 :: v1 :: v2 :: v3 :: v4 :: v5 :: v6 :: v7 :: rest =>
    beBytes 5 (b32Val [v0, v1, v2, v3, v4, v5, v6, v7]) ++ decodeQuantums rest
  | _ => []

/-- The source's `decodePrefixBits`: pad the prefix with the alphabet's zero
character (its first character, which is what `enc.EncodeToString([]byte{0})[0:1]`
yields) to whole quanta, decode, and return the decoded bytes together with
`5 * len(prefix)` decoded bits.  `none` models the decode error for
characters outside the alphabet. -/
def decodePrefixBits (pre : List Char) (ab : List Char) : Option (List Nat × Nat) :=
  let decodedBits := 5 * pre.length
  let quantums := (pre.length + 7) / 8
  let zeroChar := ab.getD 0 'a'
  let padded := pre ++ List.replicate (quantums * 8 - pre.length) zeroChar
  match charVals ab padded with
  | none => none
  | some vals => some (decodeQuantums vals, decodedBits)

/-- The predicate returned by the source's `hasPrefixBits`: a byte-prefix
comparison when `bits` is a multiple of 8, otherwise a whole-byte prefix
comparison plus a shifted comparison of the top `bits % 8` bits of the next
byte. -/
def hasPrefixBitsFn (pfx : List Nat) (bits : Nat) (b : List Nat) : Bool :=
  if bits % 8 = 0 then
    decide (b.take pfx.length = pfx)
  else
    let prefixBytes := bits / 8
    let shift := 8 - bits % 8
    let tailByte := pfx.getD prefixBytes 0 >>> shift
    decide (prefixBytes < b.length) && decide (b.take prefixBytes = pfx.take prefixBytes) &&
      decide (b.getD prefixBytes 0 >>> shift = tailByte)

/-- The source's `hasPrefixBits` with its guards: it panics (modelled as
`none`) unless `1 ≤ len(prefix) ≤ 32` and `1 ≤ bits ≤ min(256, 8*len(prefix))`. -/
def hasPrefixBits (pfx : List Nat) (bits : Nat) : Option (List Nat → Bool) :=
  if pfx.length = 0 ∨ 32 < pfx.length then none
  else if bits = 0 ∨ 256 < bits ∨ 8 * pfx.length < bits then none
  else some (hasPrefixBitsFn pfx bits)

/-- The source's `hasPrefix`: decode the prefix and build the bit predicate.
`none` models both the decode error and the `hasPrefixBits` panic. -/
def hasPrefixGo (pre : List Char) (ab : List Char) : Option (List Nat → Bool) :=
  match decodePrefixBits pre ab with
  | none => none
  | some (pb, bits) => hasPrefixBits pb bits

/-- The first `n` bits of a byte string, as a natural number: take the
`⌈n/8⌉` leading bytes (big-endian bit order within bytes) and drop the
excess low bits. -/
def firstBitsNat (n : Nat) (b : List Nat) : Nat :=
  beNat (b.take ((n + 7) / 8)) >>> (8 * ((n + 7) / 8) - n)

/-- The 5-bit value string of a prefix over an alphabet, as a natural
number: the first `5 * len(prefix)` bits the predicate should constrain. -/
def prefixVal (ab : List Char) (cs : List Char) : Nat := b32Val ((charVals ab cs).getD [])

/-! ## Base32 encoding and the onion address encoder (`service.go`) -/

/-- Big-endian base32 digits of `val`, `w` characters wide. -/
def b32Chars (ab : List Char) : Nat → Nat → List Char
  | 0, _ => []
  | w + 1, val => ab.getD (val / 32 ^ w % 32) 'a' :: b32Chars ab w val

/-- Unpadded base32 encoding (RFC 4648 with a custom alphabet, NoPadding):
full 5-byte groups become 8 characters; a trailing group of `r` bytes becomes
`⌈8r/5⌉` characters carrying its bits left-aligned. -/
def encodeB32 (ab : List Char) : List Nat → List Char
  | b0 :: b1 :: b2 :: b3 :: b4 :: rest =>
    b32Chars ab 8 (beNat [b0, b1, b2, b3, b4]) ++ encodeB32 ab rest
  | [] => []
  | rem =>
    let w := (8 * rem.length + 4) / 5
    b32Chars ab w (beNat rem <<< (5 * w - 8 * rem.length))

/-- ASCII bytes of a string. -/
def strBytes (s : String) : List Nat := s.toList.map Char.toNat

/-- A streaming hash write (`h.Write` / `buf.Write`): append to the state. -/
def hashWrite (st b : List Nat) : List Nat := st ++ b

/-- The source's `encodeOnionAddress`, with the SHA3-256 function abstracted
as a parameter `H` (the hash itself is an out-of-scope library): write
".onion checksum", the public key and the version byte into the hash, take
the first two checksum bytes, build `PUBKEY || CHECKSUM || VERSION`, encode
in lowercase unpadded base32 and append ".onion". -/
def encodeOnionAddress (H : List Nat → List Nat) (publicKey : List Nat) : List Char :=
  let version := strBytes "\x03"
  let hstate := hashWrite (hashWrite (hashWrite [] (strBytes ".onion checksum")) publicKey) version
  let checksum := (H hstate).take 2
  let buf := hashWrite (hashWrite (hashWrite [] publicKey) checksum) version
  encodeB32 onionAlphabet buf ++ ".onion".toList

/-- The specification's formula for the onion address:
`base32_lowercase(PK || SHA3-256(".onion checksum" || PK || 0x03)[:2] || 0x03) || ".onion"`.
Stated from the spec's words, to be compared with the source's encoder. -/
def onionAddressSpec (H : List Nat → List Nat) (publicKey : List Nat) : List Char :=
  encodeB32 onionAlphabet
    (publicKey ++ (H (strBytes ".onion checksum" ++ publicKey ++ [3])).take 2 ++ [3]) ++
    ".onion".toList

/-! ## The vector-division kernel over the field (`vectorDivision`) -/

/-- Forward accumulation pass of `vectorDivision` over `ZMod P25519`
(both loops of the kernel have this shape). -/
def vdFwdF : ZMod P25519 → List (ZMod P25519) → List (ZMod P25519) →
    ZMod P25519 × List (ZMod P25519)
  | py, x :: xs, y :: ys =>
    let r := vdFwdF (py * y) xs ys
    (r.1, py * x :: r.2)
  | py, _, _ => (py, [])

/-- The source's `vectorDivision` over the field GF(2^255-19): forward pass
accumulating the product of the denominators, one inversion, backward pass.
The library's `Invert` raises to the power `p - 2`, which on the field equals
`Inv.inv` (with `0⁻¹ = 0`). -/
def vectorDivision (x y : List (ZMod P25519)) : List (ZMod P25519) :=
  match x, y with
  | x0 :: xs, y0 :: ys =>
    let f := vdFwdF y0 xs ys
    let pyInv := f.1⁻¹
    let b := vdFwdF pyInv f.2.reverse ys.reverse
    b.1 * x0 :: b.2.reverse
  | _, _ => []

/-- Instrumented mirror of the forward pass, also counting the two
multiplications done per element. -/
def vdFwdI : ZMod P25519 → List (ZMod P25519) → List (ZMod P25519) →
    (ZMod P25519 × Nat) × List (ZMod P25519)
  | py, x :: xs, y :: ys =>
    let r := vdFwdI (py * y) xs ys
    ((r.1.1, r.1.2 + 2), py * x :: r.2)
  | py, _, _ => ((py, 0), [])

/-- Instrumented mirror of `vectorDivision` returning, besides the quotient
array, the number of field multiplications and of field inversions it
performs. -/
def vectorDivisionInstr (x y : List (ZMod P25519)) : List (ZMod P25519) × Nat × Nat :=
  match x, y with
  | x0 :: xs, y0 :: ys =>
    let f := vdFwdI y0 xs ys
    let pyInv := f.1.1⁻¹
    let b := vdFwdI pyInv f.2.reverse ys.reverse
    (b.1.1 * x0 :: b.2.reverse, f.1.2 + b.1.2 + 1, 1)
  | _, _ => ([], 0, 0)

/-! ## Concrete counterexample data for the search soundness claim -/

/-- Start secret key `le(2^254 - 8)`: its clamped scalar is `2^255 - 8`, so
adding an offset of 1 carries across bit 254 and the field-level `add` no
longer matches the clamped scalar. -/
def cexSk : List Nat := leBytes 32 (2 ^ 254 - 8)

def cexPk : List Nat := publicKeyFor cexSk

/-- One batch of `search` from `cexPk`, batch size 2, starting offset 0,
accepting everything. -/
def cexRun : SearchResult := searchGo cexPk 0 2 (fun _ => true) 1

/-- The trace of that single batch (three candidates at offsets 2, 0, 1). -/
def cexTrace : BatchTrace :=
  ⟨[[255, 151, 136, 74, 124, 181, 176, 123, 175, 138, 198, 168, 164, 111, 82, 182, 121, 93, 98, 240, 118, 178, 186, 220, 69, 37, 222, 20, 238, 140, 215, 122],
    [18, 233, 166, 139, 115, 253, 90, 172, 219, 202, 243, 232, 140, 70, 254, 166, 235, 237, 177, 170, 132, 238, 209, 132, 47, 7, 248, 237, 171, 101, 227, 39],
    [110, 75, 148, 164, 28, 168, 189, 140, 142, 104, 174, 9, 112, 233, 83, 238, 162, 130, 75, 235, 1, 105, 44, 253, 130, 22, 37, 224, 127, 130, 139, 65]],
   [([255, 151, 136, 74, 124, 181, 176, 123, 175, 138, 198, 168, 164, 111, 82, 182, 121, 93, 98, 240, 118, 178, 186, 220, 69, 37, 222, 20, 238, 140, 215, 122], 2),
    ([18, 233, 166, 139, 115, 253, 90, 172, 219, 202, 243, 232, 140, 70, 254, 166, 235, 237, 177, 170, 132, 238, 209, 132, 47, 7, 248, 237, 171, 101, 227, 39], 0),
    ([110, 75, 148, 164, 28, 168, 189, 140, 142, 104, 174, 9, 112, 233, 83, 238, 162, 130, 75, 235, 1, 105, 44, 253, 130, 22, 37, 224, 127, 130, 139, 65], 1)]⟩

theorem length_leBytes (k n : Nat) : (leBytes k n).length = k := by
  induction k generalizing n with
  | zero => rfl
  | succ k ih => simp [leBytes, ih]

theorem leBytes_lt (k n : Nat) : ∀ b ∈ leBytes k n, b < 256 := by
  induction k generalizing n with
  | zero => simp [leBytes]
  | succ k ih =>
    intro b hb
    simp only [leBytes, List.mem_cons] at hb
    rcases hb with h | h
    · exact h ▸ Nat.mod_lt _ (by omega)
    · exact ih _ _ h

theorem leNat_leBytes (k n : Nat) : leNat (leBytes k n) = n % 2 ^ (8 * k) := by
  induction k generalizing n with
  | zero => simp [leBytes, leNat, Nat.mod_one]
  | succ k ih =>
    simp only [leBytes, leNat, ih]
    have h1 : 2 ^ (8 * (k + 1)) = 256 * 2 ^ (8 * k) := by
      rw [show 8 * (k + 1) = 8 + 8 * k by ring, pow_add]
      norm_num
    rw [h1]
    have h2 := Nat.mod_mul_right_div_self n 256 (2 ^ (8 * k))
    have h3 : n % (256 * 2 ^ (8 * k)) % 256 = n % 256 :=
      Nat.mod_mod_of_dvd n ⟨2 ^ (8 * k), rfl⟩
    have h4 := Nat.div_add_mod (n % (256 * 2 ^ (8 * k))) 256
    omega

theorem leNat_lt (l : List Nat) (h : ∀ b ∈ l, b < 256) : leNat l < 2 ^ (8 * l.length) := by
  induction l with
  | nil => simp [leNat]
  | cons b t ih =>
    have hb : b < 256 := h b (by simp)
    have ht := ih (fun x hx => h x (by simp [hx]))
    simp only [leNat, List.length_cons]
    have h1 : 2 ^ (8 * (t.length + 1)) = 256 * 2 ^ (8 * t.length) := by ring
    omega

theorem seqN_eq {α : Type} (n : Nat) (k : α) : seqN n k = k := by simp [seqN]

theorem powModAux_eq (fuel : Nat) : ∀ e acc b m : Nat, 0 < m → e < 2 ^ fuel →
    powModAux fuel e acc b m = acc * b ^ e % m := by
  induction fuel with
  | zero =>
    intro e acc b m hm he
    interval_cases e
    simp [powModAux]
  | succ fuel ih =>
    intro e acc b m hm he
    by_cases h0 : e = 0
    · simp [powModAux, h0]
    · have hdiv : e / 2 < 2 ^ fuel := by
        have h2 : 2 ^ (fuel + 1) = 2 * 2 ^ fuel := by ring
        omega
      have hsplit : e = 2 * (e / 2) + e % 2 := by omega
      simp only [powModAux, h0, if_false, seqN_eq]
      rw [ih _ _ _ _ hm hdiv]
      have hpow : (b * b % m) ^ (e / 2) % m = (b * b) ^ (e / 2) % m :=
        (Nat.pow_mod (b * b) (e / 2) m).symm
      by_cases hpar : e % 2 = 1
      · simp only [hpar, if_true]
        have h1 : acc * b % m * (b * b % m) ^ (e / 2) % m =
            acc * b * (b * b) ^ (e / 2) % m := by
          rw [Nat.mul_mod (acc * b % m), Nat.mod_mod_of_dvd (acc * b) dvd_rfl, hpow,
            ← Nat.mul_mod]
        have h2 : acc * b * (b * b) ^ (e / 2) = acc * b ^ e := by
          conv_rhs => rw [hsplit, hpar]
          rw [pow_succ, pow_mul, pow_two]
          ring
        rw [h1, h2]
      · have hpar0 : e % 2 = 0 := by omega
        simp only [hpar, if_false]
        have h1 : acc * (b * b % m) ^ (e / 2) % m = acc * (b * b) ^ (e / 2) % m := by
          rw [Nat.mul_mod acc, hpow, ← Nat.mul_mod]
        have h2 : acc * (b * b) ^ (e / 2) = acc * b ^ e := by
          conv_rhs => rw [hsplit, hpar0, Nat.add_zero]
          rw [pow_mul, pow_two]
        rw [h1, h2]

theorem powMod_eq (fuel b e m : Nat) (hm : 0 < m) (he : e < 2 ^ fuel) :
    powMod fuel b e m = b ^ e % m := by
  rw [powMod, powModAux_eq fuel e 1 b m hm he, one_mul]

/-- Lucas primality step specialised to `Nat` arithmetic: a witness `a` whose
order modulo `n` is `n - 1`, checked against a complete list `qs` of the prime
factors of `n - 1`, certifies that `n` is prime. -/
theorem lucas_nat (n a : Nat) (qs : List Nat) (hn : 2 ≤ n)
    (hcov : ∀ q : Nat, q.Prime → q ∣ n - 1 → q ∈ qs)
    (ha : a ^ (n - 1) % n = 1)
    (hd : ∀ q ∈ qs, a ^ ((n - 1) / q) % n ≠ 1) : n.Prime := by
  have hone : (1 : Nat) % n = 1 := Nat.mod_eq_of_lt (by omega)
  refine lucas_primality n (a : ZMod n) ?_ ?_
  · have h1 : ((a ^ (n - 1) : Nat) : ZMod n) = ((1 : Nat) : ZMod n) :=
      (ZMod.natCast_eq_natCast_iff _ _ _).mpr (show a ^ (n - 1) % n = 1 % n by rw [ha, hone])
    simpa using h1
  · intro q hq hdvd hcon
    refine hd q (hcov q hq hdvd) ?_
    have h1 : ((a ^ ((n - 1) / q) : Nat) : ZMod n) = ((1 : Nat) : ZMod n) := by
      push_cast
      simpa using hcon
    have h2 := (ZMod.natCast_eq_natCast_iff _ _ _).mp h1
    unfold Nat.ModEq at h2
    rw [hone] at h2
    exact h2

theorem prime_dvd_or {q a b : Nat} (hq : q.Prime) (h : q ∣ a * b) : q ∣ a ∨ q ∣ b :=
  hq.dvd_mul.mp h

theorem prime_dvd_eq {q r : Nat} (hq : q.Prime) (hr : r.Prime) (h : q ∣ r) : q = r :=
  (Nat.prime_dvd_prime_iff_eq hq hr).mp h

theorem pow_mod_eq_one (a e n : Nat) (hn : 0 < n) (he : e < 2 ^ 256)
    (h : powMod 256 a e n = 1) : a ^ e % n = 1 := by
  rw [powMod_eq 256 a e n hn he] at h
  exact h

theorem pow_mod_ne_one (a e n : Nat) (hn : 0 < n) (he : e < 2 ^ 256)
    (h : powMod 256 a e n ≠ 1) : a ^ e % n ≠ 1 := by
  rw [powMod_eq 256 a e n hn he] at h
  exact h

theorem prime_2773320623 : Nat.Prime (2773320623 : Nat) := by
  refine lucas_nat _ 5 [2, 2437, 569003] (by norm_num) ?_ ?_ ?_
  · intro q hq hdvd
    have hfac : (2773320623 : Nat) - 1 = 2 * (2437 * (569003)) := by norm_num
    rw [hfac] at hdvd
    rcases prime_dvd_or hq hdvd with h | hdvd
    · have hqe := prime_dvd_eq hq (by norm_num) h
      subst hqe; simp
    rcases prime_dvd_or hq hdvd with h | hdvd
    · have hqe := prime_dvd_eq hq (by norm_num) h
      subst hqe; simp
    have h := hdvd
    have hqe := prime_dvd_eq hq (by norm_num) h
    subst hqe; simp
  · exact pow_mod_eq_one _ _ _ (by norm_num) (by norm_num) (by decide)
  · intro q hqmem
    fin_cases hqmem
    · exact pow_mod_ne_one _ _ _ (by norm_num) (by norm_num) (by decide)
    · exact pow_mod_ne_one _ _ _ (by norm_num) (by norm_num) (by decide)
    · exact pow_mod_ne_one _ _ _ (by norm_num) (by norm_num) (by decide)

theorem prime_72106336199 : Nat.Prime (72106336199 : Nat) := by
  refine lucas_nat _ 7 [2, 13, 2773320623] (by norm_num) ?_ ?_ ?_
  · intro q hq hdvd
    have hfac : (72106336199 : Nat) - 1 = 2 * (13 * (2773320623)) := by norm_num
    rw [hfac] at hdvd
    rcases prime_dvd_or hq hdvd with h | hdvd
    · have hqe := prime_dvd_eq hq (by norm_num) h
      subst hqe; simp
    rcases prime_dvd_or hq hdvd with h | hdvd
    · have hqe := prime_dvd_eq hq (by norm_num) h
      subst hqe; simp
    have h := hdvd
    have hqe := prime_dvd_eq hq prime_2773320623 h
    subst hqe; simp
  · exact pow_mod_eq_one _ _ _ (by norm_num) (by norm_num) (by decide)
  · intro q hqmem
    fin_cases hqmem
    · exact pow_mod_ne_one _ _ _ (by norm_num) (by norm_num) (by decide)
    · exact pow_mod_ne_one _ _ _ (by norm_num) (by norm_num) (by decide)
    · exact pow_mod_ne_one _ _ _ (by norm_num) (by norm_num) (by decide)

theorem prime_1919519569386763 : Nat.Prime (1919519569386763 : Nat) := by
  refine lucas_nat _ 2 [2, 3, 7, 19, 47, 127, 8574133] (by norm_num) ?_ ?_ ?_
  · intro q hq hdvd
    have hfac : (1919519569386763 : Nat) - 1 = 2 * (3 * (7 * (19 * (47 ^ 2 * (127 * (8574133)))))) := by norm_num
    rw [hfac] at hdvd
    rcases prime_dvd_or hq hdvd with h | hdvd
    · have hqe := prime_dvd_eq hq (by norm_num) h
      subst hqe; simp
    rcases prime_dvd_or hq hdvd with h | hdvd
    · have hqe := prime_dvd_eq hq (by norm_num) h
      subst hqe; simp
    rcases prime_dvd_or hq hdvd with h | hdvd
    · have hqe := prime_dvd_eq hq (by norm_num) h
      subst hqe; simp
    rcases prime_dvd_or hq hdvd with h | hdvd
    · have hqe := prime_dvd_eq hq (by norm_num) h
      subst hqe; simp
    rcases prime_dvd_or hq hdvd with h | hdvd
    · have h2 := hq.dvd_of_dvd_pow h
      have hqe := prime_dvd_eq hq (by norm_num) h2
      subst hqe; simp
    rcases prime_dvd_or hq hdvd with h | hdvd
    · have hqe := prime_dvd_eq hq (by norm_num) h
      subst hqe; simp
    have h := hdvd
    have hqe := prime_dvd_eq hq (by norm_num) h
    subst hqe; simp
  · exact pow_mod_eq_one _ _ _ (by norm_num) (by norm_num) (by decide)
  · intro q hqmem
    fin_cases hqmem
    · exact pow_mod_ne_one _ _ _ (by norm_num) (by norm_num) (by decide)
    · exact pow_mod_ne_one _ _ _ (by norm_num) (by norm_num) (by decide)
    · exact pow_mod_ne_one _ _ _ (by norm_num) (by norm_num) (by decide)
    · exact pow_mod_ne_one _ _ _ (by norm_num) (by norm_num) (by decide)
    · exact pow_mod_ne_one _ _ _ (by norm_num) (by norm_num) (by decide)
    · exact pow_mod_ne_one _ _ _ (by norm_num) (by norm_num) (by decide)
    · exact pow_mod_ne_one _ _ _ (by norm_num) (by norm_num) (by decide)

theorem prime_31757755568855353 : Nat.Prime (31757755568855353 : Nat) := by
  refine lucas_nat _ 10 [2, 3, 31, 107, 223, 4153, 430751] (by norm_num) ?_ ?_ ?_
  · intro q hq hdvd
    have hfac : (31757755568855353 : Nat) - 1 = 2 ^ 3 * (3 * (31 * (107 * (223 * (4153 * (430751)))))) := by norm_num
    rw [hfac] at hdvd
    rcases prime_dvd_or hq hdvd with h | hdvd
    · have h2 := hq.dvd_of_dvd_pow h
      have hqe := prime_dvd_eq hq (by norm_num) h2
      subst hqe; simp
    rcases prime_dvd_or hq hdvd with h | hdvd
    · have hqe := prime_dvd_eq hq (by norm_num) h
      subst hqe; simp
    rcases prime_dvd_or hq hdvd with h | hdvd
    · have hqe := prime_dvd_eq hq (by norm_num) h
      subst hqe; simp
    rcases prime_dvd_or hq hdvd with h | hdvd
    · have hqe := prime_dvd_eq hq (by norm_num) h
      subst hqe; simp
    rcases prime_dvd_or hq hdvd with h | hdvd
    · have hqe := prime_dvd_eq hq (by norm_num) h
      subst hqe; simp
    rcases prime_dvd_or hq hdvd with h | hdvd
    · have hqe := prime_dvd_eq hq (by norm_num) h
      subst hqe; simp
    have h := hdvd
    have hqe := prime_dvd_eq hq (by norm_num) h
    subst hqe; simp
  · exact pow_mod_eq_one _ _ _ (by norm_num) (by norm_num) (by decide)
  · intro q hqmem
    fin_cases hqmem
    · exact pow_mod_ne_one _ _ _ (by norm_num) (by norm_num) (by decide)
    · exact pow_mod_ne_one _ _ _ (by norm_num) (by norm_num) (by decide)
    · exact pow_mod_ne_one _ _ _ (by norm_num) (by norm_num) (by decide)
    · exact pow_mod_ne_one _ _ _ (by norm_num) (by norm_num) (by decide)
    · exact pow_mod_ne_one _ _ _ (by norm_num) (by norm_num) (by decide)
    · exact pow_mod_ne_one _ _ _ (by norm_num) (by norm_num) (by decide)
    · exact pow_mod_ne_one _ _ _ (by norm_num) (by norm_num) (by decide)

theorem prime_q35 : Nat.Prime (75445702479781427272750846543864801 : Nat) := by
  refine lucas_nat _ 7 [2, 3, 5, 75707, 72106336199, 1919519569386763] (by norm_num) ?_ ?_ ?_
  · intro q hq hdvd
    have hfac : (75445702479781427272750846543864801 : Nat) - 1 = 2 ^ 5 * (3 ^ 2 * (5 ^ 2 * (75707 * (72106336199 * (1919519569386763))))) := by norm_num
    rw [hfac] at hdvd
    rcases prime_dvd_or hq hdvd with h | hdvd
    · have h2 := hq.dvd_of_dvd_pow h
      have hqe := prime_dvd_eq hq (by norm_num) h2
      subst hqe; simp
    rcases prime_dvd_or hq hdvd with h | hdvd
    · have h2 := hq.dvd_of_dvd_pow h
      have hqe := prime_dvd_eq hq (by norm_num) h2
      subst hqe; simp
    rcases prime_dvd_or hq hdvd with h | hdvd
    · have h2 := hq.dvd_of_dvd_pow h
      have hqe := prime_dvd_eq hq (by norm_num) h2
      subst hqe; simp
    rcases prime_dvd_or hq hdvd with h | hdvd
    · have hqe := prime_dvd_eq hq (by norm_num) h
      subst hqe; simp
    rcases prime_dvd_or hq hdvd with h | hdvd
    · have hqe := prime_dvd_eq hq prime_72106336199 h
      subst hqe; simp
    have h := hdvd
    have hqe := prime_dvd_eq hq prime_1919519569386763 h
    subst hqe; simp
  · exact pow_mod_eq_one _ _ _ (by norm_num) (by norm_num) (by decide)
  · intro q hqmem
    fin_cases hqmem
    · exact pow_mod_ne_one _ _ _ (by norm_num) (by norm_num) (by decide)
    · exact pow_mod_ne_one _ _ _ (by norm_num) (by norm_num) (by decide)
    · exact pow_mod_ne_one _ _ _ (by norm_num) (by norm_num) (by decide)
    · exact pow_mod_ne_one _ _ _ (by norm_num) (by norm_num) (by decide)
    · exact pow_mod_ne_one _ _ _ (by norm_num) (by norm_num) (by decide)
    · exact pow_mod_ne_one _ _ _ (by norm_num) (by norm_num) (by decide)

theorem prime_q71 : Nat.Prime (74058212732561358302231226437062788676166966415465897661863160754340907 : Nat) := by
  refine lucas_nat _ 2 [2, 3, 353, 57467, 132049, 1923133, 31757755568855353, 75445702479781427272750846543864801] (by norm_num) ?_ ?_ ?_
  · intro q hq hdvd
    have hfac : (74058212732561358302231226437062788676166966415465897661863160754340907 : Nat) - 1 = 2 * (3 * (353 * (57467 * (132049 * (1923133 * (31757755568855353 * (75445702479781427272750846543864801))))))) := by norm_num
    rw [hfac] at hdvd
    rcases prime_dvd_or hq hdvd with h | hdvd
    · have hqe := prime_dvd_eq hq (by norm_num) h
      subst hqe; simp
    rcases prime_dvd_or hq hdvd with h | hdvd
    · have hqe := prime_dvd_eq hq (by norm_num) h
      subst hqe; simp
    rcases prime_dvd_or hq hdvd with h | hdvd
    · have hqe := prime_dvd_eq hq (by norm_num) h
      subst hqe; simp
    rcases prime_dvd_or hq hdvd with h | hdvd
    · have hqe := prime_dvd_eq hq (by norm_num) h
      subst hqe; simp
    rcases prime_dvd_or hq hdvd with h | hdvd
    · have hqe := prime_dvd_eq hq (by norm_num) h
      subst hqe; simp
    rcases prime_dvd_or hq hdvd with h | hdvd
    · have hqe := prime_dvd_eq hq (by norm_num) h
      subst hqe; simp
    rcases prime_dvd_or hq hdvd with h | hdvd
    · have hqe := prime_dvd_eq hq prime_31757755568855353 h
      subst hqe; simp
    have h := hdvd
    have hqe := prime_dvd_eq hq prime_q35 h
    subst hqe; simp
  · exact pow_mod_eq_one _ _ _ (by norm_num) (by norm_num) (by decide)
  · intro q hqmem
    fin_cases hqmem
    · exact pow_mod_ne_one _ _ _ (by norm_num) (by norm_num) (by decide)
    · exact pow_mod_ne_one _ _ _ (by norm_num) (by norm_num) (by decide)
    · exact pow_mod_ne_one _ _ _ (by norm_num) (by norm_num) (by decide)
    · exact pow_mod_ne_one _ _ _ (by norm_num) (by norm_num) (by decide)
    · exact pow_mod_ne_one _ _ _ (by norm_num) (by norm_num) (by decide)
    · exact pow_mod_ne_one _ _ _ (by norm_num) (by norm_num) (by decide)
    · exact pow_mod_ne_one _ _ _ (by norm_num) (by norm_num) (by decide)
    · exact pow_mod_ne_one _ _ _ (by norm_num) (by norm_num) (by decide)

theorem prime_P25519 : Nat.Prime P25519 := by
  refine lucas_nat _ 2 [2, 3, 65147, 74058212732561358302231226437062788676166966415465897661863160754340907] (by norm_num [P25519]) ?_ ?_ ?_
  · intro q hq hdvd
    have hfac : P25519 - 1 = 2 ^ 2 * (3 * (65147 * (74058212732561358302231226437062788676166966415465897661863160754340907))) := by norm_num [P25519]
    rw [hfac] at hdvd
    rcases prime_dvd_or hq hdvd with h | hdvd
    · have h2 := hq.dvd_of_dvd_pow h
      have hqe := prime_dvd_eq hq (by norm_num) h2
      subst hqe; simp
    rcases prime_dvd_or hq hdvd with h | hdvd
    · have hqe := prime_dvd_eq hq (by norm_num) h
      subst hqe; simp
    rcases prime_dvd_or hq hdvd with h | hdvd
    · have hqe := prime_dvd_eq hq (by norm_num) h
      subst hqe; simp
    have h := hdvd
    have hqe := prime_dvd_eq hq prime_q71 h
    subst hqe; simp
  · exact pow_mod_eq_one _ _ _ (by norm_num [P25519]) (by norm_num [P25519]) (by decide)
  · intro q hqmem
    fin_cases hqmem
    · exact pow_mod_ne_one _ _ _ (by norm_num [P25519]) (by norm_num [P25519]) (by decide)
    · exact pow_mod_ne_one _ _ _ (by norm_num [P25519]) (by norm_num [P25519]) (by decide)
    · exact pow_mod_ne_one _ _ _ (by norm_num [P25519]) (by norm_num [P25519]) (by decide)
    · exact pow_mod_ne_one _ _ _ (by norm_num [P25519]) (by norm_num [P25519]) (by decide)

theorem seqE_eq {α : Type} (p : EPoint) (k : α) : seqE p k = k := by simp [seqE, seqN]

/-- Validation of the curve model against the repository's test fixture: the
public key derived from the fixture secret key is the fixture public key. -/
theorem publicKeyFor_fixture : publicKeyFor skFixture = pkFixture := by decide

/-! ## Byte-string lemmas -/

/-- The value computed by `addFe`: little-endian encoding of
`(value + 8*offset) mod p`. -/
theorem addFe_eq (sk : List Nat) (k : Nat) (hsk : leNat sk < 2 ^ 255) (hk : k < 2 ^ 255) :
    addFe sk k = leBytes 32 ((leNat sk + 8 * k) % P25519) := by
  unfold addFe
  congr 1
  rw [Nat.mod_eq_of_lt hsk, Nat.mod_eq_of_lt hk]
  rw [← Nat.add_mod]
  exact Nat.ModEq.add_left (leNat sk) (Nat.ModEq.mul_left 8 (Nat.mod_modEq k P25519))

/-- Claim C8: `add` computes the unclamped field-level offset addition: for a
canonical 32-byte secret key and an offset below `2^255`, it returns exactly
the little-endian encoding of `(value + 8*offset) mod p`, and no clamping
bits are forced in the result (the second conjunct keeps a secret key with
set low bits — which clamping would clear — bit-identical under a zero
offset). -/
theorem C8_add_unclamped :
    (∀ (sk : List Nat) (k : Nat), sk.length = 32 → leNat sk < P25519 → k < 2 ^ 255 →
      addGo sk k = some (leBytes 32 ((leNat sk + 8 * k) % P25519))) ∧
    addGo (leBytes 32 1) 0 = some (leBytes 32 1) := by
  constructor
  · intro sk k hlen hcanon hk
    have hsk : leNat sk < 2 ^ 255 := by
      have : P25519 < 2 ^ 255 := by norm_num [P25519]
      omega
    unfold addGo
    rw [if_pos ⟨hlen, hk⟩, addFe_eq sk k hsk hk]
  · decide

/-- Witness for C8 at `sk = le(7)`, `k = 5`. -/
theorem C8_add_unclamped_witness :
    ((leBytes 32 7).length = 32 ∧ leNat (leBytes 32 7) < P25519 ∧ (5 : Nat) < 2 ^ 255) ∧
    addGo (leBytes 32 7) 5 = some (leBytes 32 ((leNat (leBytes 32 7) + 8 * 5) % P25519)) :=
  ⟨⟨by decide, by decide, by decide⟩,
    C8_add_unclamped.1 (leBytes 32 7) 5 (by decide) (by decide) (by decide)⟩

theorem cexRun_val : cexRun = SearchResult.ok 3 [cexTrace] := by decide

/-! ## Structural lemmas about the search loop -/

theorem runBatches_fst (n so : Nat) (tbl : List AffPoint) (bo : EPoint)
    (accept : List Nat → Bool) :
    ∀ (nb i : Nat) (pP : EPoint) (pa : AffPoint), i < 2 ^ 64 →
      (runBatches n so tbl bo accept nb i pP pa).1 = (i + nb * (n + 1)) % 2 ^ 64 := by
  intro nb
  induction nb with
  | zero =>
    intro i pP pa hi
    simp only [runBatches, Nat.zero_mul, Nat.add_zero]
    omega
  | succ nb ih =>
    intro i pP pa hi
    simp only [runBatches]
    rw [ih _ _ _ (Nat.mod_lt _ (by norm_num)), Nat.mod_add_mod]
    congr 1
    ring

theorem runBatches_len (n so : Nat) (tbl : List AffPoint) (bo : EPoint)
    (accept : List Nat → Bool) :
    ∀ (nb i : Nat) (pP : EPoint) (pa : AffPoint),
      (runBatches n so tbl bo accept nb i pP pa).2.length = nb := by
  intro nb
  induction nb with
  | zero => intro i pP pa; simp [runBatches]
  | succ nb ih =>
    intro i pP pa
    simp only [runBatches, List.length_cons]
    rw [ih]

theorem runBatch_examined_len (n so i : Nat) (tbl : List AffPoint) (bo : EPoint)
    (accept : List Nat → Bool) (pP : EPoint) (pa : AffPoint) :
    (runBatch n so i tbl bo accept pP pa).2.2.examined.length = n + 1 := by
  simp [runBatch]

theorem runBatches_examined (n so : Nat) (tbl : List AffPoint) (bo : EPoint)
    (accept : List Nat → Bool) :
    ∀ (nb i : Nat) (pP : EPoint) (pa : AffPoint) bt,
      bt ∈ (runBatches n so tbl bo accept nb i pP pa).2 → bt.examined.length = n + 1 := by
  intro nb
  induction nb with
  | zero => intro i pP pa bt hbt; simp [runBatches] at hbt
  | succ nb ih =>
    intro i pP pa bt hbt
    simp only [runBatches, List.mem_cons] at hbt
    rcases hbt with h | h
    · rw [h]
      exact runBatch_examined_len n so i tbl bo accept pP pa
    · exact ih _ _ _ _ h

/-- The count computation of a normal `search` return: the accept predicate
is invoked `batchSize + 1` times per batch, and after `nb` batches the
returned `uint64` count is `nb * (batchSize + 1)` reduced modulo `2^64`. -/
theorem searchGo_count (pk : List Nat) (so bs : Int) (accept : List Nat → Bool)
    (nb c : Nat) (batches : List BatchTrace)
    (h : searchGo pk so bs accept nb = SearchResult.ok c batches) :
    c = nb * (bs.toNat + 1) % 2 ^ 64 ∧ batches.length = nb ∧
      ∀ bt ∈ batches, bt.examined.length = bs.toNat + 1 := by
  unfold searchGo at h
  by_cases h1 : so < 0
  · rw [if_pos h1] at h
    exact absurd h (by simp)
  rw [if_neg h1] at h
  by_cases h2 : bs ≤ 0 ∨ bs % 2 ≠ 0
  · rw [if_pos h2] at h
    exact absurd h (by simp)
  rw [if_neg h2] at h
  cases hdec : pointDecode pk with
  | none =>
    rw [hdec] at h
    exact absurd h (by simp)
  | some p0 =>
    rw [hdec] at h
    injection h with hc hb
    subst hc
    subst hb
    refine ⟨?_, ?_, ?_⟩
    · rw [runBatches_fst _ _ _ _ _ _ _ _ _ (Nat.mod_lt _ (by norm_num))]
      generalize nb * (bs.toNat + 1) = A
      omega
    · rw [runBatches_len]
    · intro bt hbt
      exact runBatches_examined _ _ _ _ _ _ _ _ _ _ hbt

/-- Claim C5 (amended): per-batch candidate count and returned total.
Whenever the search returns normally after `nb` completed batches, the
accept predicate was invoked `batchSize + 1` times in every iteration (the
examined trace of every batch has that length) and the returned count is
`nb * (batchSize + 1) mod 2^64` — the counter is a `uint64`, so the count
equals the number of candidates actually examined only below `2^64`; the
`C5` counterexample exhibits the wrap. -/
theorem C5_batch_count (pk : List Nat) (so bs : Int) (accept : List Nat → Bool)
    (nb c : Nat) (batches : List BatchTrace)
    (h : searchGo pk so bs accept nb = SearchResult.ok c batches) :
    c = nb * (bs.toNat + 1) % 2 ^ 64 ∧ batches.length = nb ∧
      ∀ bt ∈ batches, bt.examined.length = bs.toNat + 1 :=
  searchGo_count pk so bs accept nb c batches h

/-- Claim C5 counterexample: after `2^64` batches of batch size 2 the search
has examined `3 * 2^64` candidates but its `uint64` counter has wrapped and
the returned count is 0, not the number of candidates actually examined. -/
theorem C5_batch_count_cex :
    (∃ batches, searchGo cexPk 0 2 (fun _ => true) (2 ^ 64) = SearchResult.ok 0 batches ∧
      batches.length = 2 ^ 64 ∧ ∀ bt ∈ batches, bt.examined.length = 3) ∧
    (0 : Nat) ≠ 2 ^ 64 * (2 + 1) := by
  constructor
  · have hsome : (pointDecode cexPk).isSome = true := by decide
    obtain ⟨c, batches, hrun⟩ :
        ∃ c batches, searchGo cexPk 0 2 (fun _ => true) (2 ^ 64) =
          SearchResult.ok c batches := by
      unfold searchGo
      rw [if_neg (by decide), if_neg (by decide)]
      cases hdec : pointDecode cexPk with
      | none =>
        rw [hdec] at hsome
        exact absurd hsome (by simp)
      | some p0 => exact ⟨_, _, rfl⟩
    have hc := searchGo_count cexPk 0 2 (fun _ => true) (2 ^ 64) c batches hrun
    have hc0 : c = 0 := by
      rw [hc.1]
      decide
    rw [hc0] at hrun
    refine ⟨batches, hrun, hc.2.1, ?_⟩
    intro bt hbt
    exact hc.2.2 bt hbt
  · decide

/-- Witness for C5 on the concrete one-batch run: count 3 = 1 * (2 + 1). -/
theorem C5_batch_count_witness :
    (searchGo cexPk 0 2 (fun _ => true) 1 = SearchResult.ok 3 [cexTrace]) ∧
    (3 = 1 * ((2 : Int).toNat + 1) % 2 ^ 64 ∧ ([cexTrace] : List BatchTrace).length = 1 ∧
      ∀ bt ∈ [cexTrace], bt.examined.length = (2 : Int).toNat + 1) :=
  ⟨cexRun_val, C5_batch_count cexPk 0 2 (fun _ => true) 1 3 [cexTrace] cexRun_val⟩

/-! ## Bound lemmas for candidate serialization -/

theorem fmul_lt (a b : Nat) : fmul a b < P25519 :=
  Nat.mod_lt _ (by norm_num [P25519])

theorem vdFwdN_snd_lt (xs : List Nat) :
    ∀ (py : Nat) (ys : List Nat), ∀ z ∈ (vdFwdN py xs ys).2, z < P25519 := by
  induction xs with
  | nil => intro py ys z hz; simp [vdFwdN] at hz
  | cons x xs ih =>
    intro py ys z hz
    cases ys with
    | nil => simp [vdFwdN] at hz
    | cons y ys =>
      simp only [vdFwdN, List.mem_cons] at hz
      rcases hz with h | h
      · rw [h]
        exact fmul_lt _ _
      · exact ih _ _ z h

theorem vectorDivisionN_lt (x y : List Nat) : ∀ z ∈ vectorDivisionN x y, z < P25519 := by
  intro z hz
  unfold vectorDivisionN at hz
  cases x with
  | nil => simp at hz
  | cons x0 xs =>
    cases y with
    | nil => simp at hz
    | cons y0 ys =>
      simp only [List.mem_cons] at hz
      rcases hz with h | h
      · rw [h]
        exact fmul_lt _ _
      · exact vdFwdN_snd_lt _ _ _ z (List.mem_reverse.mp h)

theorem getD_lt_P (l : List Nat) : ∀ (j : Nat), (∀ z ∈ l, z < P25519) → l.getD j 0 < P25519 := by
  induction l with
  | nil =>
    intro j h
    simp only [List.getD_nil]
    norm_num [P25519]
  | cons a t ih =>
    intro j h
    cases j with
    | zero =>
      simp only [List.getD_cons_zero]
      exact h a (by simp)
    | succ j =>
      simp only [List.getD_cons_succ]
      exact ih j fun z hz => h z (by simp [hz])

theorem leBytes_getD_top : ∀ (k v : Nat), (leBytes (k + 1) v).getD k 0 = v / 256 ^ k % 256 := by
  intro k
  induction k with
  | zero => intro v; simp [leBytes]
  | succ k ih =>
    intro v
    show (leBytes (k + 1) (v / 256)).getD k 0 = _
    rw [ih]
    rw [Nat.div_div_eq_div_mul]
    congr 2
    rw [pow_succ]
    ring

theorem leBytes32_msb (v : Nat) (hv : v < P25519) :
    ((leBytes 32 v).getD 31 0).testBit 7 = false := by
  have h := leBytes_getD_top 31 v
  rw [show (31 : Nat) + 1 = 32 from rfl] at h
  rw [h]
  apply Nat.testBit_eq_false_of_lt
  have hlt : v < 2 ^ 255 := by
    have : P25519 < 2 ^ 255 := by norm_num [P25519]
    omega
  have : v / 256 ^ 31 < 2 ^ 7 := by
    rw [Nat.div_lt_iff_lt_mul (by positivity)]
    calc v < 2 ^ 255 := hlt
      _ = 2 ^ 7 * 256 ^ 31 := by norm_num
  omega

theorem cand_ok (v : Nat) (hv : v < P25519) :
    (leBytes 32 v).length = 32 ∧ ((leBytes 32 v).getD 31 0).testBit 7 = false :=
  ⟨length_leBytes 32 v, leBytes32_msb v hv⟩

theorem runBatch_bound (n so i : Nat) (tbl : List AffPoint) (bo : EPoint)
    (accept : List Nat → Bool) (pP : EPoint) (pa : AffPoint) (hpa : pa.y < P25519) :
    (∀ cand ∈ (runBatch n so i tbl bo accept pP pa).2.2.examined,
        cand.length = 32 ∧ (cand.getD 31 0).testBit 7 = false) ∧
    (∀ pr ∈ (runBatch n so i tbl bo accept pP pa).2.2.yields,
        pr.1.length = 32 ∧ (pr.1.getD 31 0).testBit 7 = false) ∧
    (runBatch n so i tbl bo accept pP pa).2.1.y < P25519 := by
  have hys : ∀ j : Nat,
      (vectorDivisionN ((ynumYden pa tbl).1 ++ [1])
          ((ynumYden pa tbl).2 ++ [(pointAdd pP bo).Z])).getD j 0 < P25519 :=
    fun j => getD_lt_P _ _ (vectorDivisionN_lt _ _)
  refine ⟨?_, ?_, ?_⟩
  · intro cand hc
    simp only [runBatch, List.mem_append, List.mem_map, List.mem_range,
      List.mem_singleton] at hc
    rcases hc with ⟨j, _, hj⟩ | hc
    · rw [← hj]
      exact cand_ok _ (hys j)
    · rw [hc]
      exact cand_ok _ hpa
  · intro pr hp
    simp only [runBatch, List.mem_append, List.mem_filterMap, List.mem_range] at hp
    rcases hp with ⟨j, _, hj⟩ | hp
    · by_cases ha : accept (leBytes 32
          ((vectorDivisionN ((ynumYden pa tbl).1 ++ [1])
            ((ynumYden pa tbl).2 ++ [(pointAdd pP bo).Z])).getD j 0)) = true
      · rw [if_pos ha] at hj
        injection hj with hj
        rw [← hj]
        exact cand_ok _ (hys j)
      · rw [if_neg ha] at hj
        exact absurd hj (by simp)
    · by_cases ha : accept (leBytes 32 pa.y) = true
      · rw [if_pos ha] at hp
        simp only [List.mem_singleton] at hp
        rw [hp]
        exact cand_ok _ hpa
      · rw [if_neg ha] at hp
        simp at hp
  · show (fromP3zInv _ _).y < P25519
    exact fmul_lt _ _

theorem runBatches_bound (n so : Nat) (tbl : List AffPoint) (bo : EPoint)
    (accept : List Nat → Bool) :
    ∀ (nb i : Nat) (pP : EPoint) (pa : AffPoint), pa.y < P25519 →
      ∀ bt ∈ (runBatches n so tbl bo accept nb i pP pa).2,
        (∀ cand ∈ bt.examined, cand.length = 32 ∧ (cand.getD 31 0).testBit 7 = false) ∧
        (∀ pr ∈ bt.yields, pr.1.length = 32 ∧ (pr.1.getD 31 0).testBit 7 = false) := by
  intro nb
  induction nb with
  | zero => intro i pP pa _ bt hbt; simp [runBatches] at hbt
  | succ nb ih =>
    intro i pP pa hpa bt hbt
    simp only [runBatches, List.mem_cons] at hbt
    have hb := runBatch_bound n so i tbl bo accept pP pa hpa
    rcases hbt with h | h
    · rw [h]
      exact ⟨hb.1, hb.2.1⟩
    · exact ih _ _ _ hb.2.2 bt h

/-- Claim C10: the candidate sign-bit invariant.  Every byte string the
search passes to `accept` (the examined trace) and every public key it
passes to `yield` is a 32-byte string whose most significant bit (bit 7 of
byte 31) is zero, in every batch of every normal run. -/
theorem C10_sign_bit_invariant (pk : List Nat) (so bs : Int) (accept : List Nat → Bool)
    (nb c : Nat) (batches : List BatchTrace)
    (h : searchGo pk so bs accept nb = SearchResult.ok c batches) :
    ∀ bt ∈ batches,
      (∀ cand ∈ bt.examined, cand.length = 32 ∧ (cand.getD 31 0).testBit 7 = false) ∧
      (∀ pr ∈ bt.yields, pr.1.length = 32 ∧ (pr.1.getD 31 0).testBit 7 = false) := by
  unfold searchGo at h
  by_cases h1 : so < 0
  · rw [if_pos h1] at h
    exact absurd h (by simp)
  rw [if_neg h1] at h
  by_cases h2 : bs ≤ 0 ∨ bs % 2 ≠ 0
  · rw [if_pos h2] at h
    exact absurd h (by simp)
  rw [if_neg h2] at h
  cases hdec : pointDecode pk with
  | none =>
    rw [hdec] at h
    exact absurd h (by simp)
  | some p0 =>
    rw [hdec] at h
    injection h with hc hb
    subst hb
    intro bt hbt
    exact runBatches_bound _ _ _ _ _ _ _ _ _ (fmul_lt _ _) bt hbt

/-- Witness for C10 on the concrete one-batch run. -/
theorem C10_sign_bit_invariant_witness :
    (searchGo cexPk 0 2 (fun _ => true) 1 = SearchResult.ok 3 [cexTrace]) ∧
    (∀ bt ∈ [cexTrace],
      (∀ cand ∈ bt.examined, cand.length = 32 ∧ (cand.getD 31 0).testBit 7 = false) ∧
      (∀ pr ∈ bt.yields, pr.1.length = 32 ∧ (pr.1.getD 31 0).testBit 7 = false)) :=
  ⟨cexRun_val, C10_sign_bit_invariant cexPk 0 2 (fun _ => true) 1 3 [cexTrace] cexRun_val⟩

theorem beNat_foldl (l : List Nat) : ∀ a : Nat,
    l.foldl (fun acc b => acc * 256 + b) a = a * 256 ^ l.length + beNat l := by
  induction l with
  | nil => intro a; simp [beNat]
  | cons b t ih =>
    intro a
    show t.foldl _ (a * 256 + b) = _
    rw [ih (a * 256 + b)]
    have hbe : beNat (b :: t) = b * 256 ^ t.length + beNat t := by
      show t.foldl _ (0 * 256 + b) = _
      rw [ih (0 * 256 + b)]
      ring
    rw [hbe]
    simp [List.length_cons, pow_succ]
    ring

theorem beNat_append (l1 l2 : List Nat) :
    beNat (l1 ++ l2) = beNat l1 * 256 ^ l2.length + beNat l2 := by
  show (l1 ++ l2).foldl _ 0 = _
  rw [List.foldl_append]
  exact beNat_foldl l2 (beNat l1)

theorem beNat_reverse (l : List Nat) : beNat l.reverse = leNat l := by
  induction l with
  | nil => rfl
  | cons b t ih =>
    rw [List.reverse_cons, beNat_append, ih]
    show leNat t * 256 ^ 1 + (0 * 256 + b) = b + 256 * leNat t
    ring

theorem beNat_lt (l : List Nat) (h : ∀ b ∈ l, b < 256) : beNat l < 2 ^ (8 * l.length) := by
  have h1 : beNat l = leNat l.reverse := by
    rw [← beNat_reverse l.reverse, List.reverse_reverse]
  rw [h1]
  have := leNat_lt l.reverse (fun b hb => h b (List.mem_reverse.mp hb))
  rwa [List.length_reverse] at this

theorem leNat_inj (l1 : List Nat) : ∀ l2 : List Nat, l1.length = l2.length →
    (∀ b ∈ l1, b < 256) → (∀ b ∈ l2, b < 256) → leNat l1 = leNat l2 → l1 = l2 := by
  induction l1 with
  | nil =>
    intro l2 hlen _ _ _
    cases l2 with
    | nil => rfl
    | cons b t => simp at hlen
  | cons b1 t1 ih =>
    intro l2 hlen hb1 hb2 hval
    cases l2 with
    | nil => simp at hlen
    | cons b2 t2 =>
      have hb1' : b1 < 256 := hb1 b1 (by simp)
      have hb2' : b2 < 256 := hb2 b2 (by simp)
      have hv : b1 + 256 * leNat t1 = b2 + 256 * leNat t2 := hval
      have hbeq : b1 = b2 := by omega
      have hteq : leNat t1 = leNat t2 := by omega
      have := ih t2 (by simpa using hlen) (fun b hb => hb1 b (by simp [hb]))
        (fun b hb => hb2 b (by simp [hb])) hteq
      rw [hbeq, this]

theorem beNat_inj (l1 l2 : List Nat) (hlen : l1.length = l2.length)
    (hb1 : ∀ b ∈ l1, b < 256) (hb2 : ∀ b ∈ l2, b < 256) (hval : beNat l1 = beNat l2) :
    l1 = l2 := by
  have h1 : beNat l1 = leNat l1.reverse := by rw [← beNat_reverse l1.reverse, List.reverse_reverse]
  have h2 : beNat l2 = leNat l2.reverse := by rw [← beNat_reverse l2.reverse, List.reverse_reverse]
  have := leNat_inj l1.reverse l2.reverse (by simp [hlen])
    (fun b hb => hb1 b (List.mem_reverse.mp hb)) (fun b hb => hb2 b (List.mem_reverse.mp hb))
    (by rw [← h1, ← h2, hval])
  have h3 := congrArg List.reverse this
  simpa using h3

theorem beNat_take (l : List Nat) (k : Nat)
    (hb : ∀ b ∈ l, b < 256) :
    beNat (l.take k) = beNat l / 2 ^ (8 * (l.length - k)) := by
  have hdlen : (l.drop k).length = l.length - k := by simp
  have hdrop : beNat (l.drop k) < 2 ^ (8 * (l.length - k)) := by
    have := beNat_lt (l.drop k) (fun b hb2 => hb b (List.mem_of_mem_drop hb2))
    rwa [hdlen] at this
  have h256 : (256 : Nat) ^ (l.length - k) = 2 ^ (8 * (l.length - k)) := by
    rw [show (256 : Nat) = 2 ^ 8 by norm_num, ← pow_mul]
  have key : beNat l = beNat (l.take k) * 2 ^ (8 * (l.length - k)) + beNat (l.drop k) := by
    conv_lhs => rw [← List.take_append_drop k l]
    rw [beNat_append, hdlen, h256]
  rw [key, Nat.add_comm, Nat.add_mul_div_right _ _
      (by positivity : (0 : Nat) < 2 ^ (8 * (l.length - k))),
    Nat.div_eq_of_lt hdrop, Nat.zero_add]

/-! ## Base32 value lemmas -/

theorem b32Val_foldl (l : List Nat) : ∀ a : Nat,
    l.foldl (fun acc v => acc * 32 + v) a = a * 32 ^ l.length + b32Val l := by
  induction l with
  | nil => intro a; simp [b32Val]
  | cons v t ih =>
    intro a
    show t.foldl _ (a * 32 + v) = _
    rw [ih (a * 32 + v)]
    have hbe : b32Val (v :: t) = v * 32 ^ t.length + b32Val t := by
      show t.foldl _ (0 * 32 + v) = _
      rw [ih (0 * 32 + v)]
      ring
    rw [hbe]
    simp [List.length_cons, pow_succ]
    ring

theorem b32Val_append (l1 l2 : List Nat) :
    b32Val (l1 ++ l2) = b32Val l1 * 32 ^ l2.length + b32Val l2 := by
  show (l1 ++ l2).foldl _ 0 = _
  rw [List.foldl_append]
  exact b32Val_foldl l2 (b32Val l1)

theorem b32Val_lt (l : List Nat) (h : ∀ v ∈ l, v < 32) : b32Val l < 32 ^ l.length := by
  induction l with
  | nil => simp [b32Val]
  | cons v t ih =>
    have hv : v < 32 := h v (by simp)
    have ht := ih (fun x hx => h x (by simp [hx]))
    have hbe : b32Val (v :: t) = v * 32 ^ t.length + b32Val t := by
      show t.foldl _ (0 * 32 + v) = _
      rw [b32Val_foldl t (0 * 32 + v)]
      ring
    rw [hbe]
    simp only [List.length_cons, pow_succ]
    calc v * 32 ^ t.length + b32Val t < v * 32 ^ t.length + 32 ^ t.length := by omega
      _ = (v + 1) * 32 ^ t.length := by ring
      _ ≤ 32 * 32 ^ t.length := by
          have : v + 1 ≤ 32 := by omega
          exact Nat.mul_le_mul_right _ this
      _ = 32 ^ t.length * 32 := by ring

theorem b32Val_replicate_zero (z : Nat) : b32Val (List.replicate z 0) = 0 := by
  induction z with
  | zero => rfl
  | succ z ih =>
    have : List.replicate (z + 1) 0 = 0 :: List.replicate z 0 := rfl
    rw [this]
    show (List.replicate z 0).foldl _ (0 * 32 + 0) = 0
    rw [b32Val_foldl]
    simp [ih]

/-! ## Decoder lemmas -/

theorem decodeQuantums_spec : ∀ (n : Nat) (vals : List Nat), vals.length = 8 * n →
    (∀ v ∈ vals, v < 32) →
    (decodeQuantums vals).length = 5 * n ∧
    beNat (decodeQuantums vals) = b32Val vals ∧
    (∀ b ∈ decodeQuantums vals, b < 256) := by
  intro n
  induction n with
  | zero =>
    intro vals hlen _
    have : vals = [] := List.eq_nil_of_length_eq_zero (by omega)
    subst this
    refine ⟨rfl, rfl, ?_⟩
    intro b hb
    simp [decodeQuantums] at hb
  | succ n ih =>
    intro vals hlen hv
    rcases vals with _ | ⟨v0, _ | ⟨v1, _ | ⟨v2, _ | ⟨v3, _ | ⟨v4, _ | ⟨v5, _ | ⟨v6, _ | ⟨v7, rest⟩⟩⟩⟩⟩⟩⟩⟩ <;>
      simp only [List.length_cons, List.length_nil] at hlen <;> try omega
    have hrl : rest.length = 8 * n := by omega
    have hrest : ∀ v ∈ rest, v < 32 := fun v hvm => hv v (by simp [hvm])
    have h8 : ∀ v ∈ [v0, v1, v2, v3, v4, v5, v6, v7], v < 32 := by
      intro v hvm
      simp only [List.mem_cons, List.not_mem_nil, or_false] at hvm
      rcases hvm with rfl | rfl | rfl | rfl | rfl | rfl | rfl | rfl <;> exact hv _ (by simp)
    obtain ⟨ihl, ihv, ihb⟩ := ih rest hrl hrest
    have hV : b32Val [v0, v1, v2, v3, v4, v5, v6, v7] < 2 ^ 40 := by
      have h := b32Val_lt _ h8
      have he : (32 : Nat) ^ ([v0, v1, v2, v3, v4, v5, v6, v7].length) = 2 ^ 40 := by
        norm_num
      rwa [he] at h
    have hsplit : decodeQuantums (v0 :: v1 :: v2 :: v3 :: v4 :: v5 :: v6 :: v7 :: rest) =
        beBytes 5 (b32Val [v0, v1, v2, v3, v4, v5, v6, v7]) ++ decodeQuantums rest := rfl
    have hbe5len : (beBytes 5 (b32Val [v0, v1, v2, v3, v4, v5, v6, v7])).length = 5 := by
      simp [beBytes, length_leBytes]
    have hbe5lt : ∀ b ∈ beBytes 5 (b32Val [v0, v1, v2, v3, v4, v5, v6, v7]), b < 256 := by
      intro b hb
      exact leBytes_lt _ _ b (List.mem_reverse.mp hb)
    have hbe5val : beNat (beBytes 5 (b32Val [v0, v1, v2, v3, v4, v5, v6, v7])) =
        b32Val [v0, v1, v2, v3, v4, v5, v6, v7] := by
      show beNat (leBytes 5 _).reverse = _
      rw [beNat_reverse, leNat_leBytes]
      exact Nat.mod_eq_of_lt (by simpa using hV)
    refine ⟨?_, ?_, ?_⟩
    · rw [hsplit, List.length_append, hbe5len, ihl]
      ring
    · rw [hsplit, beNat_append, hbe5val, ihv, ihl]
      have hcons : (v0 :: v1 :: v2 :: v3 :: v4 :: v5 :: v6 :: v7 :: rest) =
          [v0, v1, v2, v3, v4, v5, v6, v7] ++ rest := rfl
      rw [hcons, b32Val_append, hrl]
      congr 2
      rw [show (256 : Nat) = 2 ^ 8 by norm_num, show (32 : Nat) = 2 ^ 5 by norm_num,
        ← pow_mul, ← pow_mul]
      ring_nf
    · intro b hb
      rw [hsplit] at hb
      rcases List.mem_append.mp hb with h | h
      · exact hbe5lt b h
      · exact ihb b h

theorem charVals_length_of_some (ab : List Char) :
    ∀ (cs : List Char) (vals : List Nat), charVals ab cs = some vals →
      vals.length = cs.length := by
  intro cs
  induction cs with
  | nil =>
    intro vals h
    cases h
    rfl
  | cons c t ih =>
    intro vals h
    unfold charVals at h
    cases hc : charIndex ab c with
    | none => rw [hc] at h; simp at h
    | some v =>
      rw [hc] at h
      cases ht : charVals ab t with
      | none => rw [ht] at h; simp at h
      | some vt =>
        rw [ht] at h
        cases h
        simp [ih vt ht]

theorem onion_char_facts : ∀ c ∈ onionAlphabet,
    (charIndex onionAlphabet c).isSome = true ∧ (charIndex onionAlphabet c).getD 0 < 32 := by
  decide

theorem charVals_some_onion (cs : List Char) (h : ∀ c ∈ cs, c ∈ onionAlphabet) :
    ∃ vals, charVals onionAlphabet cs = some vals ∧ vals.length = cs.length ∧
      ∀ v ∈ vals, v < 32 := by
  induction cs with
  | nil => exact ⟨[], rfl, rfl, by simp⟩
  | cons c t ih =>
    obtain ⟨vt, hvt, hlen, hb⟩ := ih fun x hx => h x (by simp [hx])
    obtain ⟨hs, hlt⟩ := onion_char_facts c (h c (by simp))
    obtain ⟨v, hv⟩ := Option.isSome_iff_exists.mp hs
    refine ⟨v :: vt, ?_, by simp [hlen], ?_⟩
    · unfold charVals
      rw [hv, hvt]
    · intro x hx
      rcases List.mem_cons.mp hx with hx | hx
      · rw [hx]
        have hg : (charIndex onionAlphabet c).getD 0 = v := by rw [hv]; rfl
        rw [← hg]
        exact hlt
      · exact hb x hx

theorem charVals_append_some (ab : List Char) :
    ∀ (l1 : List Char) (r1 : List Nat) {l2 : List Char} {r2 : List Nat},
      charVals ab l1 = some r1 → charVals ab l2 = some r2 →
      charVals ab (l1 ++ l2) = some (r1 ++ r2) := by
  intro l1
  induction l1 with
  | nil =>
    intro r1 l2 r2 h1 h2
    cases h1
    simpa using h2
  | cons c t ih =>
    intro r1 l2 r2 h1 h2
    unfold charVals at h1 ⊢
    cases hc : charIndex ab c with
    | none => rw [hc] at h1; simp at h1
    | some v =>
      rw [hc] at h1
      cases ht : charVals ab t with
      | none => rw [ht] at h1; simp at h1
      | some vt =>
        rw [ht] at h1
        cases h1
        show (match charIndex ab c, charVals ab (t ++ l2) with
              | some v, some vt => some (v :: vt)
              | _, _ => none) = some (v :: (vt ++ r2))
        rw [hc, ih vt ht h2]

theorem charVals_replicate_zero_onion (z : Nat) :
    charVals onionAlphabet (List.replicate z 'a') = some (List.replicate z 0) := by
  induction z with
  | zero => rfl
  | succ z ih =>
    show charVals onionAlphabet ('a' :: List.replicate z 'a') = _
    unfold charVals
    rw [show charIndex onionAlphabet 'a' = some 0 from by decide, ih]
    rfl

/-- Core decode invariant shared by the prefix claims: for a prefix over the
onion alphabet, `decodePrefixBits` succeeds, returns `5 * len` bits and
`5 * ⌈len/8⌉` bytes, and the first `5 * len` bits of those bytes are exactly
the prefix's character values. -/
theorem decodePrefixBits_spec (cs : List Char) (h : ∀ c ∈ cs, c ∈ onionAlphabet) :
    ∃ buf, decodePrefixBits cs onionAlphabet = some (buf, 5 * cs.length) ∧
      buf.length = 5 * ((cs.length + 7) / 8) ∧
      (∀ b ∈ buf, b < 256) ∧
      firstBitsNat (5 * cs.length) buf = prefixVal onionAlphabet cs := by
  obtain ⟨vals, hvals, hvlen, hvlt⟩ := charVals_some_onion cs h
  have hLq : cs.length ≤ 8 * ((cs.length + 7) / 8) := by omega
  have hzero : onionAlphabet.getD 0 'a' = 'a' := rfl
  have hpadvals : charVals onionAlphabet
      (cs ++ List.replicate ((cs.length + 7) / 8 * 8 - cs.length) 'a') =
      some (vals ++ List.replicate ((cs.length + 7) / 8 * 8 - cs.length) 0) :=
    charVals_append_some _ _ _ hvals (charVals_replicate_zero_onion _)
  have hplen : (vals ++ List.replicate ((cs.length + 7) / 8 * 8 - cs.length) 0).length =
      8 * ((cs.length + 7) / 8) := by
    simp [hvlen]
    omega
  have hplt : ∀ v ∈ vals ++ List.replicate ((cs.length + 7) / 8 * 8 - cs.length) 0, v < 32 := by
    intro v hv
    rcases List.mem_append.mp hv with hv | hv
    · exact hvlt v hv
    · have := List.eq_of_mem_replicate hv
      omega
  obtain ⟨hdlen, hdval, hdlt⟩ := decodeQuantums_spec ((cs.length + 7) / 8) _ hplen hplt
  have hval2 : beNat (decodeQuantums
      (vals ++ List.replicate ((cs.length + 7) / 8 * 8 - cs.length) 0)) =
      b32Val vals * 32 ^ ((cs.length + 7) / 8 * 8 - cs.length) := by
    rw [hdval, b32Val_append, b32Val_replicate_zero, List.length_replicate, Nat.add_zero]
  have hdec : decodePrefixBits cs onionAlphabet =
      some (decodeQuantums (vals ++ List.replicate ((cs.length + 7) / 8 * 8 - cs.length) 0),
        5 * cs.length) := by
    simp only [decodePrefixBits, hzero, hpadvals]
  refine ⟨_, hdec, hdlen, hdlt, ?_⟩
  unfold firstBitsNat
  rw [Nat.shiftRight_eq_div_pow]
  rw [beNat_take _ _ hdlt, hdlen, hval2]
  rw [Nat.div_div_eq_div_mul, ← pow_add]
  have hexp : 8 * (5 * ((cs.length + 7) / 8) - (5 * cs.length + 7) / 8) +
      (8 * ((5 * cs.length + 7) / 8) - 5 * cs.length) =
      5 * ((cs.length + 7) / 8 * 8 - cs.length) := by omega
  rw [hexp]
  have h32 : (32 : Nat) ^ ((cs.length + 7) / 8 * 8 - cs.length) =
      2 ^ (5 * ((cs.length + 7) / 8 * 8 - cs.length)) := by
    rw [show (32 : Nat) = 2 ^ 5 by norm_num, ← pow_mul]
  rw [h32, Nat.mul_div_cancel _ (by positivity)]
  unfold prefixVal
  rw [hvals]
  rfl

/-- Claim C7: the prefix decoder invariant.  For every prefix string over
the alphabet, `decodePrefixBits` returns `bits = 5 * len(p)` together with
the base32 decoding of the prefix padded to whole quanta with the alphabet's
zero character, whose first `⌈bits/8⌉` bytes carry exactly the prefix's
bits. -/
theorem C7_decodePrefixBits_invariant (cs : List Char) (h : ∀ c ∈ cs, c ∈ onionAlphabet) :
    ∃ buf, decodePrefixBits cs onionAlphabet = some (buf, 5 * cs.length) ∧
      buf.length = 5 * ((cs.length + 7) / 8) ∧
      firstBitsNat (5 * cs.length) buf = prefixVal onionAlphabet cs := by
  obtain ⟨buf, h1, h2, _, h4⟩ := decodePrefixBits_spec cs h
  exact ⟨buf, h1, h2, h4⟩

/-- Witness for C7 at the repository's own test vector "ayay"
(`TestDecodePrefixBits` expects bytes 00000110 00000001 10000000 00 00 and
20 bits). -/
theorem C7_decodePrefixBits_invariant_witness :
    (∀ c ∈ "ayay".toList, c ∈ onionAlphabet) ∧
    (∃ buf, decodePrefixBits "ayay".toList onionAlphabet =
        some (buf, 5 * "ayay".toList.length) ∧
      buf.length = 5 * (("ayay".toList.length + 7) / 8) ∧
      firstBitsNat (5 * "ayay".toList.length) buf = prefixVal onionAlphabet "ayay".toList) ∧
    decodePrefixBits "ayay".toList onionAlphabet = some ([6, 1, 128, 0, 0], 20) :=
  ⟨by decide, C7_decodePrefixBits_invariant "ayay".toList (by decide), by decide⟩

/-! ## C6: semantics of the bit-prefix predicate -/

theorem getD_lt_256 (l : List Nat) (k : Nat) (hk : k < l.length)
    (h : ∀ v ∈ l, v < 256) : l.getD k 0 < 256 := by
  rw [List.getD_eq_getElem l 0 hk]
  exact h _ (List.getElem_mem hk)

theorem beNat_take_succ (l : List Nat) (k : Nat) (hk : k < l.length) :
    beNat (l.take (k + 1)) = beNat (l.take k) * 256 + l.getD k 0 := by
  rw [List.take_succ]
  have hx : l[k]?.toList = [l.getD k 0] := by
    rw [List.getElem?_eq_getElem hk, List.getD_eq_getElem l 0 hk]
    rfl
  rw [hx, beNat_append]
  show beNat (l.take k) * 256 ^ 1 + (0 * 256 + l.getD k 0) = _
  ring

theorem shiftRight_split (A c r : Nat) (hr1 : 1 ≤ r) (hr2 : r ≤ 7) :
    (A * 256 + c) >>> (8 - r) = A * 2 ^ r + c >>> (8 - r) := by
  rw [Nat.shiftRight_eq_div_pow, Nat.shiftRight_eq_div_pow]
  have h256 : A * 256 + c = c + A * 2 ^ r * 2 ^ (8 - r) := by
    have he : 2 ^ r * 2 ^ (8 - r) = 256 := by
      rw [← pow_add, show r + (8 - r) = 8 from by omega]
      norm_num
    calc A * 256 + c = c + A * (2 ^ r * 2 ^ (8 - r)) := by rw [he]; ring
    _ = c + A * 2 ^ r * 2 ^ (8 - r) := by ring
  rw [h256, Nat.add_mul_div_right _ _ (by positivity)]
  exact Nat.add_comm _ _

theorem shiftRight_lt_of_lt (c r : Nat) (hr2 : r ≤ 8) (hc : c < 256) :
    c >>> (8 - r) < 2 ^ r := by
  rw [Nat.shiftRight_eq_div_pow]
  apply Nat.div_lt_of_lt_mul
  have h : 2 ^ (8 - r) * 2 ^ r = 256 := by
    rw [← pow_add, show 8 - r + r = 8 from by omega]
    norm_num
  rw [h]
  exact hc

theorem mul_pow_add_unique (X Y u v E : Nat) (hu : u < E) (hv : v < E)
    (h : X * E + u = Y * E + v) : X = Y ∧ u = v := by
  have hE : 0 < E := Nat.lt_of_le_of_lt (Nat.zero_le u) hu
  have hX : X = Y := by
    have h1 : (X * E + u) / E = X := by
      rw [Nat.mul_comm X E, Nat.mul_add_div hE, Nat.div_eq_of_lt hu, Nat.add_zero]
    have h2 : (Y * E + v) / E = Y := by
      rw [Nat.mul_comm Y E, Nat.mul_add_div hE, Nat.div_eq_of_lt hv, Nat.add_zero]
    rw [← h1, ← h2, h]
  refine ⟨hX, ?_⟩
  subst hX
  exact Nat.add_left_cancel h

/-- Shared semantics lemma for `hasPrefixBits`: under the guard conditions,
byte bounds, and the decoder's shape constraint, the returned predicate tests
equality of the first `bits` bits. -/
theorem hasPrefixBits_semantics (pfx : List Nat) (bits : Nat)
    (hp : ∀ v ∈ pfx, v < 256)
    (hlen1 : 1 ≤ pfx.length) (hlen2 : pfx.length ≤ 32)
    (hb1 : 1 ≤ bits) (hb2 : bits ≤ 256) (hb3 : bits ≤ 8 * pfx.length)
    (hdec : bits % 8 = 0 → pfx.length = bits / 8) :
    ∃ f, hasPrefixBits pfx bits = some f ∧
      ∀ b : List Nat, (∀ v ∈ b, v < 256) →
        (f b = true ↔
          (bits + 7) / 8 ≤ b.length ∧ firstBitsNat bits b = firstBitsNat bits pfx) := by
  refine ⟨hasPrefixBitsFn pfx bits, ?_, ?_⟩
  · unfold hasPrefixBits
    rw [if_neg (by omega), if_neg (by omega)]
  intro b hbb
  by_cases h8 : bits % 8 = 0
  · have hplen : pfx.length = bits / 8 := hdec h8
    have hshift : 8 * ((bits + 7) / 8) - bits = 0 := by omega
    have hceil : (bits + 7) / 8 = bits / 8 := by omega
    have hfpfx : firstBitsNat bits pfx = beNat pfx := by
      unfold firstBitsNat
      rw [hshift, Nat.shiftRight_zero, hceil, ← hplen, List.take_length]
    have hfb : firstBitsNat bits b = beNat (b.take (bits / 8)) := by
      unfold firstBitsNat
      rw [hshift, Nat.shiftRight_zero, hceil]
    unfold hasPrefixBitsFn
    rw [if_pos h8]
    simp only [decide_eq_true_iff]
    constructor
    · intro h
      have hlb : pfx.length ≤ b.length := by
        have hl := congrArg List.length h
        rw [List.length_take] at hl
        omega
      refine ⟨by omega, ?_⟩
      rw [hfb, hfpfx, ← hplen, h]
    · rintro ⟨hlb, hv⟩
      rw [hfb, hfpfx] at hv
      rw [hplen]
      apply beNat_inj
      · rw [List.length_take]
        omega
      · intro x hx
        exact hbb x (List.mem_of_mem_take hx)
      · exact hp
      · exact hv
  · have hr1 : 1 ≤ bits % 8 := by omega
    have hr2 : bits % 8 ≤ 7 := by omega
    have hceil : (bits + 7) / 8 = bits / 8 + 1 := by omega
    have hplen : bits / 8 + 1 ≤ pfx.length := by omega
    have hshift : 8 * ((bits + 7) / 8) - bits = 8 - bits % 8 := by omega
    have key : ∀ l : List Nat, (∀ v ∈ l, v < 256) → bits / 8 + 1 ≤ l.length →
        firstBitsNat bits l =
          beNat (l.take (bits / 8)) * 2 ^ (bits % 8) +
            l.getD (bits / 8) 0 >>> (8 - bits % 8) := by
      intro l hl hll
      unfold firstBitsNat
      rw [hshift, hceil, beNat_take_succ l (bits / 8) (by omega)]
      exact shiftRight_split _ _ _ hr1 hr2
    unfold hasPrefixBitsFn
    rw [if_neg h8]
    simp only [Bool.and_eq_true, decide_eq_true_iff]
    constructor
    · rintro ⟨⟨hlb, htake⟩, htail⟩
      refine ⟨by omega, ?_⟩
      rw [key b hbb (by omega), key pfx hp hplen, htake, htail]
    · rintro ⟨hlb, hv⟩
      rw [key b hbb (by omega), key pfx hp hplen] at hv
      have hu := mul_pow_add_unique _ _ _ _ _
        (shiftRight_lt_of_lt _ _ (by omega) (getD_lt_256 b _ (by omega) hbb))
        (shiftRight_lt_of_lt _ _ (by omega) (getD_lt_256 pfx _ (by omega) hp))
        hv
      refine ⟨⟨by omega, ?_⟩, hu.2⟩
      apply beNat_inj
      · rw [List.length_take, List.length_take]
        omega
      · intro x hx
        exact hbb x (List.mem_of_mem_take hx)
      · intro x hx
        exact hp x (List.mem_of_mem_take hx)
      · exact hu.1

/-- C6: on inputs whose guards pass, with all bytes in range, and with the
decoder's shape constraint (`bits % 8 = 0` forces `len(prefix) = bits / 8`,
which every output of `decodePrefixBits` satisfies), `hasPrefixBits` returns
a predicate that holds on a byte string exactly when the string is long
enough to contain `bits` bits and its first `bits` bits agree with the first
`bits` bits of the decoded prefix. -/
theorem C6_hasPrefixBits_semantics (pfx : List Nat) (bits : Nat)
    (hp : ∀ v ∈ pfx, v < 256)
    (hlen1 : 1 ≤ pfx.length) (hlen2 : pfx.length ≤ 32)
    (hb1 : 1 ≤ bits) (hb2 : bits ≤ 256) (hb3 : bits ≤ 8 * pfx.length)
    (hdec : bits % 8 = 0 → pfx.length = bits / 8) :
    ∃ f, hasPrefixBits pfx bits = some f ∧
      ∀ b : List Nat, (∀ v ∈ b, v < 256) →
        (f b = true ↔
          (bits + 7) / 8 ≤ b.length ∧ firstBitsNat bits b = firstBitsNat bits pfx) :=
  hasPrefixBits_semantics pfx bits hp hlen1 hlen2 hb1 hb2 hb3 hdec

/-- Witness for C6 at the prefix decoded from "ayay" (bytes `[6,1,128,0,0]`,
20 bits, a split-byte case), together with two concrete evaluations of the
predicate body. -/
theorem C6_hasPrefixBits_semantics_witness :
    ((∀ v ∈ [6, 1, 128, 0, 0], v < 256) ∧ 20 ≤ 8 * ([6, 1, 128, 0, 0] : List Nat).length) ∧
    (∃ f, hasPrefixBits [6, 1, 128, 0, 0] 20 = some f ∧
      ∀ b : List Nat, (∀ v ∈ b, v < 256) →
        (f b = true ↔
          (20 + 7) / 8 ≤ b.length ∧
            firstBitsNat 20 b = firstBitsNat 20 [6, 1, 128, 0, 0])) ∧
    hasPrefixBitsFn [6, 1, 128, 0, 0] 20 [6, 1, 133, 7] = true ∧
    hasPrefixBitsFn [6, 1, 128, 0, 0] 20 [6, 1, 144, 7] = false :=
  ⟨⟨by decide, by decide⟩,
    C6_hasPrefixBits_semantics [6, 1, 128, 0, 0] 20 (by decide) (by decide) (by decide)
      (by decide) (by decide) (by decide) (by decide),
    by decide, by decide⟩

/-! ## C3: compiling a textual prefix into a bit predicate -/

/-- C3 counterexample: a 49-character prefix over the onion alphabet is within
the claimed 51-character limit, yet `hasPrefix` panics — `decodePrefixBits`
pads it to 7 quanta and returns a 35-byte buffer, which trips the
`len(prefix) > 32` guard of `hasPrefixBits`. -/
theorem C3_prefix_compile_cex :
    (∀ c ∈ List.replicate 49 'a', c ∈ onionAlphabet) ∧
    (List.replicate 49 'a').length ≤ 51 ∧
    (hasPrefixGo (List.replicate 49 'a') onionAlphabet).isNone = true := by
  refine ⟨by decide, by decide, ?_⟩
  decide

/-- C3 (amended): for every prefix over the onion alphabet of length 1..48,
`hasPrefix` succeeds and the resulting predicate, on 32-byte inputs,
constrains exactly the first `5·L` bits of the input to equal the prefix's
5-bit character values. -/
theorem C3_prefix_compile_amended (cs : List Char)
    (h : ∀ c ∈ cs, c ∈ onionAlphabet) (h1 : 1 ≤ cs.length) (h48 : cs.length ≤ 48) :
    ∃ f, hasPrefixGo cs onionAlphabet = some f ∧
      ∀ b : List Nat, b.length = 32 → (∀ v ∈ b, v < 256) →
        (f b = true ↔ firstBitsNat (5 * cs.length) b = prefixVal onionAlphabet cs) := by
  obtain ⟨buf, hdec, hblen, hbb, hfb⟩ := decodePrefixBits_spec cs h
  obtain ⟨f, hsome, hsem⟩ := hasPrefixBits_semantics buf (5 * cs.length) hbb
    (by omega) (by omega) (by omega) (by omega) (by omega) (by omega)
  refine ⟨f, ?_, ?_⟩
  · simp only [hasPrefixGo, hdec]
    exact hsome
  intro b hb32 hbv
  rw [hsem b hbv, hfb]
  constructor
  · rintro ⟨_, hv⟩
    exact hv
  · intro hv
    exact ⟨by omega, hv⟩

/-- Witness for C3 at the repository's test prefix "ayay" (length 4 ≤ 48). -/
theorem C3_prefix_compile_witness :
    ((∀ c ∈ "ayay".toList, c ∈ onionAlphabet) ∧ 1 ≤ "ayay".toList.length ∧
      "ayay".toList.length ≤ 48) ∧
    (∃ f, hasPrefixGo "ayay".toList onionAlphabet = some f ∧
      ∀ b : List Nat, b.length = 32 → (∀ v ∈ b, v < 256) →
        (f b = true ↔ firstBitsNat (5 * "ayay".toList.length) b =
          prefixVal onionAlphabet "ayay".toList)) :=
  ⟨⟨by decide, by decide, by decide⟩,
    C3_prefix_compile_amended "ayay".toList (by decide) (by decide) (by decide)⟩

/-! ## C4: the vector-division kernel -/

theorem vdFwdF_len : ∀ (xs ys : List (ZMod P25519)) (py : ZMod P25519),
    (vdFwdF py xs ys).2.length = min xs.length ys.length := by
  intro xs
  induction xs with
  | nil => intro ys py; cases ys <;> rfl
  | cons x xs ih =>
    intro ys py
    cases ys with
    | nil => rfl
    | cons y ys =>
      have h : vdFwdF py (x :: xs) (y :: ys) =
          ((vdFwdF (py * y) xs ys).1, py * x :: (vdFwdF (py * y) xs ys).2) := rfl
      rw [h]
      simp only [List.length_cons, ih ys (py * y)]
      omega

theorem vdFwdF_fst : ∀ (xs ys : List (ZMod P25519)) (py : ZMod P25519),
    xs.length = ys.length → (vdFwdF py xs ys).1 = py * ys.prod := by
  intro xs
  induction xs with
  | nil =>
    intro ys py hlen
    cases ys with
    | nil => simp [vdFwdF]
    | cons y t => simp at hlen
  | cons x xs ih =>
    intro ys py hlen
    cases ys with
    | nil => simp at hlen
    | cons y ys =>
      have hlen' : xs.length = ys.length := by simpa using hlen
      have h : vdFwdF py (x :: xs) (y :: ys) =
          ((vdFwdF (py * y) xs ys).1, py * x :: (vdFwdF (py * y) xs ys).2) := rfl
      rw [h]
      show (vdFwdF (py * y) xs ys).1 = py * (y :: ys).prod
      rw [ih ys (py * y) hlen', List.prod_cons, mul_assoc]

theorem vdFwdF_append : ∀ (l1 m1 : List (ZMod P25519)), l1.length = m1.length →
    ∀ (l2 m2 : List (ZMod P25519)) (py : ZMod P25519),
    vdFwdF py (l1 ++ l2) (m1 ++ m2) =
      ((vdFwdF (vdFwdF py l1 m1).1 l2 m2).1,
        (vdFwdF py l1 m1).2 ++ (vdFwdF (vdFwdF py l1 m1).1 l2 m2).2) := by
  intro l1
  induction l1 with
  | nil =>
    intro m1 hlen l2 m2 py
    cases m1 with
    | nil => rfl
    | cons y t => simp at hlen
  | cons x l1 ih =>
    intro m1 hlen l2 m2 py
    cases m1 with
    | nil => simp at hlen
    | cons y m1 =>
      have hlen' : l1.length = m1.length := by simpa using hlen
      have h1 : vdFwdF py ((x :: l1) ++ l2) ((y :: m1) ++ m2) =
          ((vdFwdF (py * y) (l1 ++ l2) (m1 ++ m2)).1,
            py * x :: (vdFwdF (py * y) (l1 ++ l2) (m1 ++ m2)).2) := rfl
      have h2 : vdFwdF py (x :: l1) (y :: m1) =
          ((vdFwdF (py * y) l1 m1).1, py * x :: (vdFwdF (py * y) l1 m1).2) := rfl
      rw [h1, h2, ih m1 hlen' l2 m2 (py * y)]
      rfl

theorem vd_inv_mul_cancel (a b : ZMod P25519) (hb : b ≠ 0) : (a * b)⁻¹ * b = a⁻¹ := by
  haveI : Fact (Nat.Prime P25519) := ⟨prime_P25519⟩
  rw [mul_inv, mul_assoc, inv_mul_cancel₀ hb, mul_one]

theorem vd_inv_mul_shift (py y x : ZMod P25519) (hpy : py ≠ 0) :
    (py * y)⁻¹ * (py * x) = x * y⁻¹ := by
  haveI : Fact (Nat.Prime P25519) := ⟨prime_P25519⟩
  rw [mul_inv]
  calc py⁻¹ * y⁻¹ * (py * x) = py⁻¹ * py * (x * y⁻¹) := by ring
  _ = x * y⁻¹ := by rw [inv_mul_cancel₀ hpy, one_mul]

theorem vd_backward : ∀ (xs ys : List (ZMod P25519)) (py : ZMod P25519),
    xs.length = ys.length → (∀ v ∈ ys, v ≠ 0) → py ≠ 0 →
    vdFwdF (py * ys.prod)⁻¹ (vdFwdF py xs ys).2.reverse ys.reverse =
      (py⁻¹, (List.zipWith (fun a b => a * b⁻¹) xs ys).reverse) := by
  haveI : Fact (Nat.Prime P25519) := ⟨prime_P25519⟩
  intro xs
  induction xs with
  | nil =>
    intro ys py hlen _ _
    cases ys with
    | nil => simp [vdFwdF]
    | cons y t => simp at hlen
  | cons x xs ih =>
    intro ys py hlen hys hpy
    cases ys with
    | nil => simp at hlen
    | cons y ys =>
      have hy : y ≠ 0 := hys y (by simp)
      have hys' : ∀ v ∈ ys, v ≠ 0 := fun v hv => hys v (by simp [hv])
      have hlen' : xs.length = ys.length := by simpa using hlen
      have hpyy : py * y ≠ 0 := mul_ne_zero hpy hy
      have hstep : vdFwdF py (x :: xs) (y :: ys) =
          ((vdFwdF (py * y) xs ys).1, py * x :: (vdFwdF (py * y) xs ys).2) := rfl
      have hrlen : ((vdFwdF (py * y) xs ys).2.reverse).length = ys.reverse.length := by
        simp [vdFwdF_len xs ys (py * y)]
        omega
      have hprod : py * (y :: ys).prod = py * y * ys.prod := by
        rw [List.prod_cons, mul_assoc]
      rw [hstep, hprod]
      show vdFwdF (py * y * ys.prod)⁻¹ ((py * x :: (vdFwdF (py * y) xs ys).2).reverse)
          ((y :: ys).reverse) = _
      rw [List.reverse_cons, List.reverse_cons,
        vdFwdF_append (vdFwdF (py * y) xs ys).2.reverse ys.reverse hrlen [py * x] [y]
          (py * y * ys.prod)⁻¹,
        ih ys (py * y) hlen' hys' hpyy]
      have hsingle : vdFwdF ((py * y)⁻¹ : ZMod P25519) [py * x] [y] =
          ((py * y)⁻¹ * y, [(py * y)⁻¹ * (py * x)]) := rfl
      rw [hsingle, vd_inv_mul_cancel py y hy, vd_inv_mul_shift py y x hpy]
      show (py⁻¹, (List.zipWith (fun a b => a * b⁻¹) xs ys).reverse ++ [x * y⁻¹]) = _
      rw [List.zipWith_cons_cons, List.reverse_cons]

theorem vectorDivision_eq (x y : List (ZMod P25519)) (hlen : x.length = y.length)
    (hn : 1 ≤ x.length) (hy : ∀ v ∈ y, v ≠ 0) :
    vectorDivision x y = List.zipWith (fun a b => a * b⁻¹) x y := by
  cases x with
  | nil => simp at hn
  | cons x0 xs =>
    cases y with
    | nil => simp at hlen
    | cons y0 ys =>
      have hy0 : y0 ≠ 0 := hy y0 (by simp)
      have hys : ∀ v ∈ ys, v ≠ 0 := fun v hv => hy v (by simp [hv])
      have hlen' : xs.length = ys.length := by simpa using hlen
      show (vdFwdF ((vdFwdF y0 xs ys).1)⁻¹ (vdFwdF y0 xs ys).2.reverse ys.reverse).1 * x0 ::
          (vdFwdF ((vdFwdF y0 xs ys).1)⁻¹ (vdFwdF y0 xs ys).2.reverse ys.reverse).2.reverse = _
      rw [vdFwdF_fst xs ys y0 hlen', vd_backward xs ys y0 hlen' hys hy0]
      show y0⁻¹ * x0 :: (List.zipWith (fun a b => a * b⁻¹) xs ys).reverse.reverse = _
      rw [List.reverse_reverse, mul_comm, List.zipWith_cons_cons]

theorem vdFwdI_eq : ∀ (xs ys : List (ZMod P25519)) (py : ZMod P25519),
    vdFwdI py xs ys =
      (((vdFwdF py xs ys).1, 2 * min xs.length ys.length), (vdFwdF py xs ys).2) := by
  intro xs
  induction xs with
  | nil => intro ys py; cases ys <;> rfl
  | cons x xs ih =>
    intro ys py
    cases ys with
    | nil => rfl
    | cons y ys =>
      have h1 : vdFwdI py (x :: xs) (y :: ys) =
          (((vdFwdI (py * y) xs ys).1.1, (vdFwdI (py * y) xs ys).1.2 + 2),
            py * x :: (vdFwdI (py * y) xs ys).2) := rfl
      have h2 : vdFwdF py (x :: xs) (y :: ys) =
          ((vdFwdF (py * y) xs ys).1, py * x :: (vdFwdF (py * y) xs ys).2) := rfl
      rw [h1, h2, ih ys (py * y)]
      simp only [Prod.mk.injEq, List.length_cons, true_and, and_true]
      omega

theorem vectorDivisionInstr_eq (x y : List (ZMod P25519)) (hlen : x.length = y.length)
    (hn : 1 ≤ x.length) :
    vectorDivisionInstr x y = (vectorDivision x y, 4 * (x.length - 1) + 1, 1) := by
  cases x with
  | nil => simp at hn
  | cons x0 xs =>
    cases y with
    | nil => simp at hlen
    | cons y0 ys =>
      have hlen' : xs.length = ys.length := by simpa using hlen
      simp only [vectorDivisionInstr, vectorDivision, vdFwdI_eq]
      simp only [Prod.mk.injEq, List.length_cons, true_and, and_true]
      have h1 := vdFwdF_len xs ys y0
      simp only [List.length_reverse, h1]
      omega

/-- C4: for equal-length nonempty vectors over GF(2^255-19) with every
denominator nonzero, `vectorDivision` computes the pointwise quotients
`x[i] * y[i]⁻¹`, and its instrumented mirror certifies that it performs
exactly `4(n-1)+1` field multiplications and exactly one field inversion.
(The Go code writes into a caller-supplied output array `u`; the functional
model returns the output list, which corresponds to the non-aliasing case.) -/
theorem C4_vectorDivision_correct (x y : List (ZMod P25519))
    (hlen : x.length = y.length) (hn : 1 ≤ x.length) (hy : ∀ v ∈ y, v ≠ 0) :
    vectorDivision x y = List.zipWith (fun a b => a * b⁻¹) x y ∧
    vectorDivisionInstr x y =
      (List.zipWith (fun a b => a * b⁻¹) x y, 4 * (x.length - 1) + 1, 1) := by
  have h1 := vectorDivision_eq x y hlen hn hy
  have h2 := vectorDivisionInstr_eq x y hlen hn
  rw [h1] at h2
  exact ⟨h1, h2⟩

/-- Witness for C4 on the concrete vectors x = [3,5,9], y = [7,2,4]. -/
theorem C4_vectorDivision_correct_witness :
    (([3, 5, 9] : List (ZMod P25519)).length = ([7, 2, 4] : List (ZMod P25519)).length ∧
      1 ≤ ([3, 5, 9] : List (ZMod P25519)).length ∧
      (∀ v ∈ ([7, 2, 4] : List (ZMod P25519)), v ≠ 0)) ∧
    (vectorDivision [3, 5, 9] [7, 2, 4] =
        List.zipWith (fun a b => a * b⁻¹) [3, 5, 9] [7, 2, 4] ∧
      vectorDivisionInstr [3, 5, 9] [7, 2, 4] =
        (List.zipWith (fun a b => a * b⁻¹) [3, 5, 9] [7, 2, 4],
          4 * (([3, 5, 9] : List (ZMod P25519)).length - 1) + 1, 1)) :=
  ⟨⟨by decide, by decide, by decide⟩,
    C4_vectorDivision_correct [3, 5, 9] [7, 2, 4] (by decide) (by decide) (by decide)⟩

/-! ## C9: the onion address encoding -/

/-- C9: for every hash function `H` (standing for SHA3-256, an out-of-scope
library primitive) and every public key byte string, the source's
`encodeOnionAddress` produces exactly
`base32_lowercase(PK || H(".onion checksum" || PK || 0x03)[:2] || 0x03) || ".onion"`,
the formula of the onion-address specification. -/
theorem C9_onion_address_encoding (H : List Nat → List Nat) (publicKey : List Nat) :
    encodeOnionAddress H publicKey = onionAddressSpec H publicKey := by
  have hv : strBytes "\x03" = [3] := by decide
  simp [encodeOnionAddress, onionAddressSpec, hashWrite, hv, List.append_assoc]

end OnionVanity
